import Mathlib

/-!
Verification of the dependency-graph engine of `generate_dependencies.py`
(class `DepGraphBuilder`) together with the timing correlator
(`parse_build_log`) and the auxiliary rendering facts used by the spec.

Shallow embedding conventions:
* Projects are identified by natural numbers (the source uses normalized
  path strings; only their identity and total order matter to the engine).
* Python dicts keyed by project are association lists `List (Proj × α)`
  with first-match lookup and in-place overwrite (matching dict update
  semantics, which keeps the original key position).
* The recursive closure computation `_build_full_ref_map` is embedded with
  an explicit fuel parameter; the source recursion inserts the node into
  the memo table before recursing, so its depth is bounded by the number
  of still-missing projects, and any fuel of at least that size computes
  the same table (proved below as fuel independence).
-/

/-- Project identifier (a normalized path in the source). -/
abbrev Proj := Nat

/-- First-match association-list lookup: `d.get(p)` / `p in d` on a Python dict. -/
def lookupA {α : Type} : List (Proj × α) → Proj → Option α
  | [], _ => none
  | (q, v) :: rest, p => if p = q then some v else lookupA rest p

/-- Association-list update `d[p] = v`: overwrite the existing binding in
place (Python dicts keep the key's original position) or append a new one. -/
def setA {α : Type} : List (Proj × α) → Proj → α → List (Proj × α)
  | [], p, v => [(p, v)]
  | (q, w) :: rest, p, v => if p = q then (q, v) :: rest else (q, w) :: setA rest p v

/-- The memo table `self._full_ref_map`: project ↦ set of projects. -/
abbrev Memo := List (Proj × Finset Proj)

/-- `self._full_ref_map[p]`, reading a missing key as the empty set. -/
def entryOf (m : Memo) (p : Proj) : Finset Proj := (lookupA m p).getD ∅

/-- The set of keys of an association list (`d.keys()`). -/
def domF {α : Type} (m : List (Proj × α)) : Finset Proj := (m.map Prod.fst).toFinset

/-- Inner loop of `_build_full_ref_map`: `for ref in self._ref_map.get(project, [])`.
`step` is the recursive call made for a reference that has no memo entry yet. -/
def build_refs_loop (step : Memo → Proj → Memo) : Memo → Proj → List Proj → Memo
  | m, _, [] => m
  | m, p, r :: rs =>
    if r ∈ entryOf m p then
      -- "Already added refs from this project, continue"
      build_refs_loop step m p rs
    else
      -- "Haven't computed all refs for this project yet so do that now"
      let m1 := if (lookupA m r).isSome then m else step m r
      -- self._full_ref_map[project] |= self._full_ref_map[ref]
      build_refs_loop step (setA m1 p (entryOf m1 p ∪ entryOf m1 r)) p rs

/-- `_build_full_ref_map(project)`: seed the memo entry with `{project}`,
then fold the references.  `rm` is `self._ref_map` (direct references);
the fuel bounds the recursion depth (see fuel independence below). -/
def build_full_ref_map (rm : Proj → List Proj) : Nat → Memo → Proj → Memo
  | 0, m, _ => m
  | fuel + 1, m, p => build_refs_loop (build_full_ref_map rm fuel) (setA m p {p}) p (rm p)

/-- The loop in `run_data_collection`:
`for project in self.all_projects: if project not in self._full_ref_map: self._build_full_ref_map(project)`.
`order` is the (arbitrary) iteration order of the Python set `all_projects`. -/
def build_all_full_ref_maps (rm : Proj → List Proj) (fuel : Nat) (order : List Proj) : Memo :=
  order.foldl (fun m p => if (lookupA m p).isSome then m else build_full_ref_map rm fuel m p) []

/-- Reachability along direct references: the transitive-reflexive closure
of the edge relation `b ∈ rm a`.  This is the mathematical closure that the
spec's `closureOf` is intended to compute. -/
def Reach (rm : Proj → List Proj) (p q : Proj) : Prop :=
  Relation.ReflTransGen (fun a b => b ∈ rm a) p q

/-- Redundancy test of `_build_min_ref_map`: a reference is redundant when
some *other* direct reference's computed full-reference set contains it. -/
def isRedundantIn (full : Memo) (refs : List Proj) (r : Proj) : Bool :=
  refs.any (fun o => decide (o ≠ r) && decide (r ∈ entryOf full o))

/-- `_build_min_ref_map` for one project (default mode, where the scanned
reference list is used as is): keep, in order, the non-redundant references. -/
def min_refs (full : Memo) (refs : List Proj) : List Proj :=
  refs.filter (fun r => ! isRedundantIn full refs r)

/-- `reverse[k].add(v)` on the defaultdict `self._full_reverse_ref_map`. -/
def revAdd (m : Memo) (k v : Proj) : Memo := setA m k (insert v (entryOf m k))

/-- First loop of `_build_reverse_ref_maps`, building the full reverse map:
`for project, refs in self._full_ref_map.items(): reverse[project].add(project); for ref in refs: reverse[ref].add(project)`. -/
def build_full_reverse_ref_map (full : Memo) : Memo :=
  full.foldl
    (fun acc pr => (pr.2.sort (· ≤ ·)).foldl (fun a r => revAdd a r pr.1) (revAdd acc pr.1 pr.1)) []

/- Concrete reference graphs used to exercise the algorithms. -/

/-- Two-project cycle: A(0) references B(1) and B references A (Scenario B). -/
def rmCycle2 : Proj → List Proj := fun p => if p = 0 then [1] else if p = 1 then [0] else []

/-- Three-project cycle: 0 → 1 → 2 → 0. -/
def rmCycle3 : Proj → List Proj :=
  fun p => if p = 0 then [1] else if p = 1 then [2] else if p = 2 then [0] else []

/-- Two-cycle plus a consumer: 0 ↔ 1, and 2 references both 0 and 1. -/
def rmPair : Proj → List Proj :=
  fun p => if p = 0 then [1] else if p = 1 then [0] else if p = 2 then [0, 1] else []

/-- Acyclic chain with a shortcut: 2 references 1 and 0, 1 references 0. -/
def rmChain : Proj → List Proj :=
  fun p => if p = 2 then [1, 0] else if p = 1 then [0] else []

/-! ### Timing correlator (`parse_build_log`) -/

/-- One fact from the build log parser: build sequence number, normalized
project path, total duration in milliseconds, and the raw unused-reference
text for that build number (empty when absent). -/
structure BuildFact where
  num : Nat
  proj : Proj
  ms : Nat
  unusedText : List Char
deriving DecidableEq

/-- The builder state touched by `parse_build_log`. -/
structure TimingState where
  buildTimeMap : List (Proj × Nat)
  maxBuildTime : Nat
  buildNumMap : List (Proj × Nat)
  unusedLibsMap : List (Proj × List Char)
deriving DecidableEq

/-- Body of `parse_build_log`'s loop for one `(build_num, (project, build_ms))`
item: store the duration and build number under the normalized project path
(the embedding takes paths pre-normalized), raise the running maximum, and
retain nonempty unused-library text. -/
def parse_build_log_step (st : TimingState) (f : BuildFact) : TimingState :=
  { buildTimeMap := setA st.buildTimeMap f.proj f.ms
    maxBuildTime := max st.maxBuildTime f.ms
    buildNumMap := setA st.buildNumMap f.proj f.num
    unusedLibsMap :=
      if 0 < f.unusedText.length then setA st.unusedLibsMap f.proj f.unusedText
      else st.unusedLibsMap }

/-- `parse_build_log` over the parser's `build_map.items()` sequence. -/
def parse_build_log (st : TimingState) (facts : List BuildFact) : TimingState :=
  facts.foldl parse_build_log_step st

/-! ### Build-time leaderboard (`create_build_time_leaderboard`) -/

/-- Python's `sorted(items, key=lambda item: item[1], reverse=True)` is a
stable descending sort on the value component; `List.insertionSort` with
this relation computes exactly that order. -/
def sortByTimeDesc (items : List (Proj × Nat)) : List (Proj × Nat) :=
  items.insertionSort (fun a b => b.2 ≤ a.2)

/-- `create_build_time_leaderboard(num_projects)`: projects of the timing
map in stable descending duration order, restricted to internal projects,
truncated to the requested length. -/
def create_build_time_leaderboard (btm : List (Proj × Nat)) (internal : List Proj)
    (numProjects : Nat) : List Proj :=
  (((sortByTimeDesc btm).map Prod.fst).filter (fun p => decide (p ∈ internal))).take numProjects

/-! ### Node color (`_get_node_color`) -/

/-- Lowercase hexadecimal digit. -/
def hexDigit (n : Nat) : Char :=
  if n = 0 then '0' else if n = 1 then '1' else if n = 2 then '2' else if n = 3 then '3'
  else if n = 4 then '4' else if n = 5 then '5' else if n = 6 then '6' else if n = 7 then '7'
  else if n = 8 then '8' else if n = 9 then '9' else if n = 10 then 'a' else if n = 11 then 'b'
  else if n = 12 then 'c' else if n = 13 then 'd' else if n = 14 then 'e' else 'f'

/-- Python's `'{:02x}'.format(n)` for `n ≤ 255`. -/
def hex2 (n : Nat) : String := String.mk [hexDigit (n / 16 % 16), hexDigit (n % 16)]

/-- Exact-arithmetic linear interpolation of the green channel between
`gFrom` (at `d = 0`) and `gTo` (at `d = m`), rendered as `#ff____00`. -/
def lerpGreenHex (gFrom gTo d m : Nat) : String :=
  "#ff" ++ hex2 ((gFrom * (m - d) + gTo * d) / m) ++ "00"

/-- `_get_node_color(project)`: timed projects get
`'#ff{:02x}00'.format(int((1 - build_time/max_build_time) * 0xff))` (the
float expression is embedded as exact rational arithmetic truncated to a
natural number), external untimed projects a fixed gray, others white. -/
def get_node_color (btm : List (Proj × Nat)) (maxBuildTime : Nat) (external : List Proj)
    (p : Proj) : String :=
  match lookupA btm p with
  | some d => "#ff" ++ hex2 (255 * (maxBuildTime - d) / maxBuildTime) ++ "00"
  | none => if p ∈ external then "#b0b0b0" else "#ffffff"

/-- Modelled from the spec: `color = lerp(fullRed, yellow, duration/maxDuration)`,
red at parameter 0 and yellow at parameter 1 (the claimed direction of the
interpolation), with the same gray/white fallbacks. -/
def claimed_node_color (btm : List (Proj × Nat)) (maxBuildTime : Nat) (external : List Proj)
    (p : Proj) : String :=
  match lookupA btm p with
  | some d => lerpGreenHex 0 255 d maxBuildTime
  | none => if p ∈ external then "#b0b0b0" else "#ffffff"

/-! ### Graph edges (`_add_graph_edges`) -/

/-- Python's substring test `needle in hay`. -/
def strContains (needle : List Char) : List Char → Bool
  | [] => needle.isEmpty
  | c :: rest => needle.isPrefixOf (c :: rest) || strContains needle rest

/-- Style of an emitted edge: hidden edges are invisible, visible edges
carry the color encoding the "unused" flag. -/
inductive EdgeStyle where
  | invis : EdgeStyle
  | colored (color : String) : EdgeStyle
deriving DecidableEq

/-- An emitted graphviz edge `ref → project` (dependency → dependent).
Tooltip text is layout metadata and is not modelled. -/
structure GEdge where
  tail : Proj
  head : Proj
  style : EdgeStyle
deriving DecidableEq

/-- `_add_graph_edges`: for each display project in sorted order and each of
its minimal references in sorted order, skip references outside the display
set, emit invisible edges for hidden endpoints, and otherwise color the edge
red when some output file of the dependency, prefixed by a path separator,
occurs in the dependent's unused-library text, black otherwise. -/
def add_graph_edges (minRefMap : Proj → List Proj)
    (projectOutputMap : Proj → Option (List (List Char)))
    (unusedLibsMap : Proj → Option (List Char))
    (displayProjects : List Proj) (hiddenProjects : List Proj) : List GEdge :=
  (displayProjects.insertionSort (· ≤ ·)).flatMap (fun p =>
    ((minRefMap p).insertionSort (· ≤ ·)).filterMap (fun r =>
      if r ∈ displayProjects then
        if p ∈ hiddenProjects ∨ r ∈ hiddenProjects then some ⟨r, p, .invis⟩
        else
          let unused := match projectOutputMap r, unusedLibsMap p with
            | some outs, some txt => outs.any (fun o => strContains ('\\' :: o) txt)
            | _, _ => false
          some ⟨r, p, .colored (if unused then "#ff0000" else "#000000")⟩
      else none))

/-! ### Alias generation (`_generate_uuids`) -/

/-- Decimal digit character. -/
def digitChar (n : Nat) : Char :=
  if n = 0 then '0' else if n = 1 then '1' else if n = 2 then '2' else if n = 3 then '3'
  else if n = 4 then '4' else if n = 5 then '5' else if n = 6 then '6' else if n = 7 then '7'
  else if n = 8 then '8' else '9'

/-- Decimal digits of `n`, most significant first; the fuel dominates the
value, so `decStrAux (n+1) n` always has enough. -/
def decStrAux : Nat → Nat → List Char
  | 0, _ => []
  | fuel + 1, n =>
    if n < 10 then [digitChar n] else decStrAux fuel (n / 10) ++ [digitChar (n % 10)]

/-- Python's `str(n)` for a natural number. -/
def decStr (n : Nat) : String := String.mk (decStrAux (n + 1) n)

/-- `_generate_uuids`: walk `sorted(self.all_projects)` with an integer
counter starting at 0, recording `uuid_map[project] = str(id)` and
`reverse_uuid_map[str(id)] = project`.  The input is the project set given
as a list; sorting it models `sorted` on the Python set. -/
def generate_uuids (allProjects : List Proj) :
    List (Proj × String) × List (String × Proj) :=
  let sortedProjects := allProjects.insertionSort (· ≤ ·)
  (sortedProjects.enum.map (fun ip => (ip.2, decStr ip.1)),
   sortedProjects.enum.map (fun ip => (decStr ip.1, ip.2)))

/-- First-match lookup in the reverse alias map (string keys). -/
def lookupS {α : Type} : List (String × α) → String → Option α
  | [], _ => none
  | (q, v) :: rest, s => if s = q then some v else lookupS rest s

/-! ### Association-list lemmas -/

theorem lookupA_setA_self {α : Type} (m : List (Proj × α)) (p : Proj) (v : α) :
    lookupA (setA m p v) p = some v := by
  induction m with
  | nil => simp [setA, lookupA]
  | cons hd tl ih =>
    obtain ⟨q, w⟩ := hd
    by_cases h : p = q
    · simp [setA, h, lookupA]
    · simp [setA, h, lookupA, ih]

theorem lookupA_setA_ne {α : Type} (m : List (Proj × α)) (p q : Proj) (v : α) (h : q ≠ p) :
    lookupA (setA m p v) q = lookupA m q := by
  induction m with
  | nil => simp [setA, lookupA, h]
  | cons hd tl ih =>
    obtain ⟨k, w⟩ := hd
    by_cases hk : p = k
    · subst hk
      simp [setA, lookupA, h]
    · by_cases hq : q = k
      · simp [setA, hk, lookupA, hq]
      · simp [setA, hk, lookupA, hq, ih]

theorem mem_domF {α : Type} (m : List (Proj × α)) (q : Proj) :
    q ∈ domF m ↔ ∃ v, lookupA m q = some v := by
  induction m with
  | nil => simp [domF, lookupA]
  | cons hd tl ih =>
    obtain ⟨k, w⟩ := hd
    by_cases hq : q = k
    · subst hq
      simp [domF, lookupA]
    · simp only [domF, List.map_cons, List.toFinset_cons, Finset.mem_insert, lookupA, hq,
        if_false] at *
      simpa [hq] using ih

theorem isSome_iff_mem_domF {α : Type} (m : List (Proj × α)) (q : Proj) :
    (lookupA m q).isSome = true ↔ q ∈ domF m := by
  rw [mem_domF, Option.isSome_iff_exists]

theorem domF_setA {α : Type} (m : List (Proj × α)) (p : Proj) (v : α) :
    domF (setA m p v) = insert p (domF m) := by
  ext q
  by_cases h : q = p
  · subst h
    simp [mem_domF, lookupA_setA_self]
  · simp [mem_domF, lookupA_setA_ne m p q v h, h]

theorem entryOf_setA_self (m : Memo) (p : Proj) (s : Finset Proj) :
    entryOf (setA m p s) p = s := by
  simp [entryOf, lookupA_setA_self]

theorem entryOf_setA_ne (m : Memo) (p q : Proj) (s : Finset Proj) (h : q ≠ p) :
    entryOf (setA m p s) q = entryOf m q := by
  simp [entryOf, lookupA_setA_ne m p q s h]

theorem lookupA_some_of_mem_domF (m : Memo) (q : Proj) (h : q ∈ domF m) :
    lookupA m q = some (entryOf m q) := by
  rw [mem_domF] at h
  obtain ⟨v, hv⟩ := h
  simp [entryOf, hv]

/-- Keys of an association list are pairwise distinct.  The builder only
creates bindings through `setA`, so all its maps satisfy this. -/
def keysNodup {α : Type} (m : List (Proj × α)) : Prop := (m.map Prod.fst).Nodup

theorem keysNodup_nil {α : Type} : keysNodup ([] : List (Proj × α)) := by
  simp [keysNodup]

theorem keysNodup_setA {α : Type} (m : List (Proj × α)) (p : Proj) (v : α)
    (h : keysNodup m) : keysNodup (setA m p v) := by
  induction m with
  | nil => simp [setA, keysNodup]
  | cons hd tl ih =>
    obtain ⟨k, w⟩ := hd
    simp only [keysNodup, List.map_cons, List.nodup_cons] at h
    by_cases hk : p = k
    · subst hk
      simpa [setA, keysNodup] using h
    · have h1 : keysNodup tl := h.2
      have h2 := ih h1
      simp only [setA, hk, if_false, keysNodup, List.map_cons, List.nodup_cons]
      refine ⟨?_, h2⟩
      intro hmem
      -- k occurs among the keys of `setA tl p v`, hence among `insert p (keys tl)`
      have : k ∈ domF (setA tl p v) := by
        simpa [domF, List.mem_toFinset] using hmem
      rw [domF_setA] at this
      rcases Finset.mem_insert.mp this with h3 | h3
      · exact hk h3.symm
      · exact h.1 (by simpa [domF, List.mem_toFinset] using h3)

theorem mem_iff_lookupA {α : Type} (m : List (Proj × α)) (p : Proj) (v : α)
    (h : keysNodup m) : (p, v) ∈ m ↔ lookupA m p = some v := by
  induction m with
  | nil => simp [lookupA]
  | cons hd tl ih =>
    obtain ⟨k, w⟩ := hd
    simp only [keysNodup, List.map_cons, List.nodup_cons] at h
    by_cases hk : p = k
    · subst hk
      simp only [lookupA, if_pos rfl, List.mem_cons, Option.some.injEq, Prod.mk.injEq,
        if_true, eq_self_iff_true, true_and]
      constructor
      · rintro (rfl | hmem)
        · rfl
        · exact absurd (List.mem_map.mpr ⟨(p, v), hmem, rfl⟩) h.1
      · rintro rfl
        exact Or.inl rfl
    · simp only [lookupA, if_neg hk, List.mem_cons, Prod.mk.injEq]
      rw [← ih h.2]
      constructor
      · rintro (⟨h1, _⟩ | hmem)
        · exact absurd h1 hk
        · exact hmem
      · exact fun hmem => Or.inr hmem

theorem lookupA_mem {α : Type} (m : List (Proj × α)) (p : Proj) (v : α)
    (h : lookupA m p = some v) : (p, v) ∈ m := by
  induction m with
  | nil => simp [lookupA] at h
  | cons hd tl ih =>
    obtain ⟨k, w⟩ := hd
    by_cases hk : p = k
    · subst hk
      simp only [lookupA, if_pos rfl, if_true, eq_self_iff_true, Option.some.injEq] at h
      subst h
      exact List.mem_cons_self _ _
    · simp only [lookupA, if_neg hk] at h
      exact List.mem_cons_of_mem _ (ih h)

/-! ### Basic invariants of the closure computation -/

theorem build_refs_loop_dom (step : Memo → Proj → Memo)
    (hstep : ∀ m q, domF m ⊆ domF (step m q)) :
    ∀ (rs : List Proj) (m : Memo) (p : Proj), domF m ⊆ domF (build_refs_loop step m p rs) := by
  intro rs
  induction rs with
  | nil =>
    intro m p
    rw [build_refs_loop]
  | cons r rs ih =>
    intro m p
    rw [build_refs_loop]
    by_cases hr : r ∈ entryOf m p
    · rw [if_pos hr]
      exact ih m p
    · rw [if_neg hr]
      simp only
      refine subset_trans ?_ (ih _ p)
      rw [domF_setA]
      intro x hx
      apply Finset.mem_insert_of_mem
      by_cases hsome : (lookupA m r).isSome
      · rwa [if_pos hsome]
      · rw [if_neg hsome]
        exact hstep m r hx

theorem build_full_ref_map_dom (rm : Proj → List Proj) :
    ∀ (fuel : Nat) (m : Memo) (p : Proj), domF m ⊆ domF (build_full_ref_map rm fuel m p) := by
  intro fuel
  induction fuel with
  | zero =>
    intro m p
    rw [build_full_ref_map]
  | succ f ih =>
    intro m p
    rw [build_full_ref_map]
    refine subset_trans ?_ (build_refs_loop_dom _ ih (rm p) (setA m p {p}) p)
    rw [domF_setA]
    exact Finset.subset_insert _ _

/-- Every memo entry contains its own key (entries are seeded with `{p}`
and only ever grow). -/
def WInv (m : Memo) : Prop := ∀ q s, lookupA m q = some s → q ∈ s

theorem build_refs_loop_winv (step : Memo → Proj → Memo)
    (hstepdom : ∀ m q, domF m ⊆ domF (step m q))
    (hstep : ∀ m q, WInv m → WInv (step m q)) :
    ∀ (rs : List Proj) (m : Memo) (p : Proj), WInv m → p ∈ domF m →
      WInv (build_refs_loop step m p rs) := by
  intro rs
  induction rs with
  | nil =>
    intro m p hw _
    rwa [build_refs_loop]
  | cons r rs ih =>
    intro m p hw hp
    rw [build_refs_loop]
    by_cases hr : r ∈ entryOf m p
    · rw [if_pos hr]
      exact ih m p hw hp
    · rw [if_neg hr]
      simp only
      set m1 := if (lookupA m r).isSome then m else step m r with hm1
      have hw1 : WInv m1 := by
        rw [hm1]
        by_cases hsome : (lookupA m r).isSome
        · rwa [if_pos hsome]
        · rw [if_neg hsome]
          exact hstep m r hw
      have hp1 : p ∈ domF m1 := by
        rw [hm1]
        by_cases hsome : (lookupA m r).isSome
        · rwa [if_pos hsome]
        · rw [if_neg hsome]
          exact hstepdom m r hp
      refine ih _ p ?_ ?_
      · intro q s hq
        by_cases hqp : q = p
        · subst hqp
          rw [lookupA_setA_self] at hq
          obtain rfl := Option.some.inj hq
          have := hw1 q (entryOf m1 q) (lookupA_some_of_mem_domF m1 q hp1)
          exact Finset.mem_union_left _ this
        · rw [lookupA_setA_ne _ _ _ _ hqp] at hq
          exact hw1 q s hq
      · rw [domF_setA]
        exact Finset.mem_insert_self _ _

theorem build_full_ref_map_winv (rm : Proj → List Proj) :
    ∀ (fuel : Nat) (m : Memo) (p : Proj), WInv m → WInv (build_full_ref_map rm fuel m p) := by
  intro fuel
  induction fuel with
  | zero =>
    intro m p hw
    rwa [build_full_ref_map]
  | succ f ih =>
    intro m p hw
    rw [build_full_ref_map]
    refine build_refs_loop_winv _ (build_full_ref_map_dom rm f) ih (rm p) _ p ?_ ?_
    · intro q s hq
      by_cases hqp : q = p
      · subst hqp
        rw [lookupA_setA_self] at hq
        obtain rfl := Option.some.inj hq
        exact Finset.mem_singleton_self _
      · rw [lookupA_setA_ne _ _ _ _ hqp] at hq
        exact hw q s hq
    · rw [domF_setA]
      exact Finset.mem_insert_self _ _

theorem build_all_full_ref_maps_winv (rm : Proj → List Proj) (fuel : Nat) (order : List Proj) :
    WInv (build_all_full_ref_maps rm fuel order) := by
  have : ∀ (l : List Proj) (m : Memo), WInv m →
      WInv (l.foldl
        (fun m p => if (lookupA m p).isSome then m else build_full_ref_map rm fuel m p) m) := by
    intro l
    induction l with
    | nil => exact fun m hw => hw
    | cons p l ih =>
      intro m hw
      rw [List.foldl_cons]
      apply ih
      by_cases hsome : (lookupA m p).isSome
      · rwa [if_pos hsome]
      · rw [if_neg hsome]
        exact build_full_ref_map_winv rm fuel m p hw
  exact this order [] (fun q s h => by simp [lookupA] at h)

theorem build_refs_loop_nodup (step : Memo → Proj → Memo)
    (hstep : ∀ m q, keysNodup m → keysNodup (step m q)) :
    ∀ (rs : List Proj) (m : Memo) (p : Proj), keysNodup m →
      keysNodup (build_refs_loop step m p rs) := by
  intro rs
  induction rs with
  | nil =>
    intro m p h
    rwa [build_refs_loop]
  | cons r rs ih =>
    intro m p h
    rw [build_refs_loop]
    by_cases hr : r ∈ entryOf m p
    · rw [if_pos hr]
      exact ih m p h
    · rw [if_neg hr]
      simp only
      refine ih _ p (keysNodup_setA _ _ _ ?_)
      by_cases hsome : (lookupA m r).isSome
      · rwa [if_pos hsome]
      · rw [if_neg hsome]
        exact hstep m r h

theorem build_full_ref_map_nodup (rm : Proj → List Proj) :
    ∀ (fuel : Nat) (m : Memo) (p : Proj), keysNodup m →
      keysNodup (build_full_ref_map rm fuel m p) := by
  intro fuel
  induction fuel with
  | zero =>
    intro m p h
    rwa [build_full_ref_map]
  | succ f ih =>
    intro m p h
    rw [build_full_ref_map]
    exact build_refs_loop_nodup _ ih (rm p) _ p (keysNodup_setA _ _ _ h)

theorem build_all_full_ref_maps_nodup (rm : Proj → List Proj) (fuel : Nat) (order : List Proj) :
    keysNodup (build_all_full_ref_maps rm fuel order) := by
  have : ∀ (l : List Proj) (m : Memo), keysNodup m →
      keysNodup (l.foldl
        (fun m p => if (lookupA m p).isSome then m else build_full_ref_map rm fuel m p) m) := by
    intro l
    induction l with
    | nil => exact fun m h => h
    | cons p l ih =>
      intro m h
      rw [List.foldl_cons]
      apply ih
      by_cases hsome : (lookupA m p).isSome
      · rwa [if_pos hsome]
      · rw [if_neg hsome]
        exact build_full_ref_map_nodup rm fuel m p h
  exact this order [] keysNodup_nil

/-! ### The full reverse map is the exact inverse of the closure map -/

theorem entryOf_revAdd (m : Memo) (k v j : Proj) :
    entryOf (revAdd m k v) j = if j = k then insert v (entryOf m k) else entryOf m j := by
  by_cases hj : j = k
  · subst hj
    rw [if_pos rfl, revAdd, entryOf_setA_self]
  · rw [if_neg hj, revAdd, entryOf_setA_ne _ _ _ _ hj]

theorem mem_entry_foldl_revAdd (p : Proj) :
    ∀ (l : List Proj) (m : Memo) (x j : Proj),
      x ∈ entryOf (l.foldl (fun a r => revAdd a r p) m) j ↔
        x ∈ entryOf m j ∨ (x = p ∧ j ∈ l) := by
  intro l
  induction l with
  | nil => simp
  | cons r rs ih =>
    intro m x j
    rw [List.foldl_cons, ih, entryOf_revAdd]
    by_cases hj : j = r
    · subst hj
      rw [if_pos rfl]
      simp only [Finset.mem_insert, List.mem_cons]
      tauto
    · rw [if_neg hj]
      simp only [List.mem_cons]
      tauto

theorem mem_entry_build_full_reverse_aux :
    ∀ (l : Memo) (acc : Memo) (x j : Proj),
      x ∈ entryOf (l.foldl
          (fun acc pr =>
            (pr.2.sort (· ≤ ·)).foldl (fun a r => revAdd a r pr.1) (revAdd acc pr.1 pr.1)) acc) j ↔
        x ∈ entryOf acc j ∨ ∃ pr ∈ l, pr.1 = x ∧ (j = x ∨ j ∈ pr.2) := by
  intro l
  induction l with
  | nil => simp
  | cons pr l ih =>
    intro acc x j
    rw [List.foldl_cons, ih, mem_entry_foldl_revAdd, entryOf_revAdd,
      List.exists_mem_cons_iff]
    simp only [Finset.mem_sort]
    by_cases hjp : j = pr.1
    · rw [if_pos hjp]
      subst hjp
      simp only [Finset.mem_insert]
      constructor
      · rintro (((rfl | h) | ⟨rfl, hmem⟩) | ⟨qr, hqr, rfl, hj⟩)
        · exact Or.inr (Or.inl ⟨rfl, Or.inl rfl⟩)
        · exact Or.inl h
        · exact Or.inr (Or.inl ⟨rfl, Or.inr hmem⟩)
        · exact Or.inr (Or.inr ⟨qr, hqr, rfl, hj⟩)
      · rintro (h | (⟨rfl, h1 | hmem⟩ | ⟨qr, hqr, rfl, hj⟩))
        · exact Or.inl (Or.inl (Or.inr h))
        · exact Or.inl (Or.inl (Or.inl rfl))
        · exact Or.inl (Or.inr ⟨rfl, hmem⟩)
        · exact Or.inr ⟨qr, hqr, rfl, hj⟩
    · rw [if_neg hjp]
      constructor
      · rintro ((h | ⟨rfl, hmem⟩) | ⟨qr, hqr, rfl, hj⟩)
        · exact Or.inl h
        · exact Or.inr (Or.inl ⟨rfl, Or.inr hmem⟩)
        · exact Or.inr (Or.inr ⟨qr, hqr, rfl, hj⟩)
      · rintro (h | (⟨rfl, hj | hmem⟩ | ⟨qr, hqr, rfl, hj⟩))
        · exact Or.inl (Or.inl h)
        · exact absurd hj hjp
        · exact Or.inl (Or.inr ⟨rfl, hmem⟩)
        · exact Or.inr ⟨qr, hqr, rfl, hj⟩

/-- For a memo table with distinct keys whose entries contain their keys,
membership in the reverse map is exactly membership of the key's entry. -/
theorem mem_entry_build_full_reverse (full : Memo) (hnd : keysNodup full) (hw : WInv full)
    (P R : Proj) :
    R ∈ entryOf full P ↔ P ∈ entryOf (build_full_reverse_ref_map full) R := by
  rw [build_full_reverse_ref_map, mem_entry_build_full_reverse_aux]
  constructor
  · intro h
    have hlk : lookupA full P = some (entryOf full P) := by
      rcases hopt : lookupA full P with _ | s
      · rw [entryOf, hopt] at h
        simp at h
      · rw [entryOf, hopt]
        rfl
    right
    exact ⟨(P, entryOf full P), lookupA_mem _ _ _ hlk, rfl, Or.inr h⟩
  · rintro (h | ⟨⟨q, s⟩, hmem, hq, hR⟩)
    · rw [entryOf, lookupA] at h
      simp at h
    · have hq' : q = P := hq
      have hlk : lookupA full q = some s := (mem_iff_lookupA full q s hnd).mp hmem
      have hent : entryOf full q = s := by
        rw [entryOf, hlk]
        rfl
      rw [← hq', hent]
      rcases hR with hR | hR
      · rw [hR, ← hq']
        exact hw q s hlk
      · exact hR

/-- C5: the full reverse map is the exact set-inverse of the closure map:
for all projects `P`, `R`, `R ∈ closureOf(P)` iff `P ∈ fullReverseOf(R)`,
for the maps computed by `_build_full_ref_map` / `_build_reverse_ref_maps`
on any reference graph, processing order and fuel. -/
theorem c5_full_reverse_exact_inverse (rm : Proj → List Proj) (fuel : Nat) (order : List Proj)
    (P R : Proj) :
    R ∈ entryOf (build_all_full_ref_maps rm fuel order) P ↔
      P ∈ entryOf (build_full_reverse_ref_map (build_all_full_ref_maps rm fuel order)) R :=
  mem_entry_build_full_reverse _ (build_all_full_ref_maps_nodup rm fuel order)
    (build_all_full_ref_maps_winv rm fuel order) P R

/-! ### Reachability helpers and acyclicity -/

theorem reach_refl (rm : Proj → List Proj) (p : Proj) : Reach rm p p :=
  Relation.ReflTransGen.refl

theorem reach_head (rm : Proj → List Proj) {p r x : Proj} (hr : r ∈ rm p)
    (h : Reach rm r x) : Reach rm p x :=
  Relation.ReflTransGen.head hr h

theorem reach_single (rm : Proj → List Proj) {p r : Proj} (hr : r ∈ rm p) : Reach rm p r :=
  Relation.ReflTransGen.single hr

theorem reach_trans {rm : Proj → List Proj} {a b c : Proj}
    (h1 : Reach rm a b) (h2 : Reach rm b c) : Reach rm a c :=
  Relation.ReflTransGen.trans h1 h2

theorem reach_cases {rm : Proj → List Proj} {p x : Proj} (h : Reach rm p x) :
    p = x ∨ ∃ r, r ∈ rm p ∧ Reach rm r x :=
  Relation.ReflTransGen.cases_head h

/-- The reference graph has no (nontrivial) cycle: no direct reference of a
project can reach back to it. -/
def Acyclic (rm : Proj → List Proj) : Prop := ∀ a b, b ∈ rm a → ¬ Reach rm b a

theorem reach_antisymm {rm : Proj → List Proj} (hacyc : Acyclic rm) {a b : Proj}
    (hab : Reach rm a b) (hba : Reach rm b a) : a = b := by
  rcases reach_cases hab with h | ⟨c, hc, hcb⟩
  · exact h
  · exact absurd (reach_trans hcb hba) (hacyc a c hc)

/-! ### The memo-table invariant for the acyclic completeness proof -/

/-- Invariant of the memo table during the recursive closure computation on
an acyclic graph.  `S` is the set of in-progress ("stack") nodes: every
entry contains its key, is sound for reachability, has all its elements
registered in the table, is reach-closed at every element other than its
key, and — for completed keys (outside `S`) — contains everything reachable
from its key. -/
def Good (rm : Proj → List Proj) (S : Finset Proj) (m : Memo) : Prop :=
  ∀ q s, lookupA m q = some s →
    q ∈ s ∧ (∀ x ∈ s, Reach rm q x) ∧ (∀ x ∈ s, x ∈ domF m) ∧
    (∀ x ∈ s, x ≠ q → ∀ y, Reach rm x y → y ∈ s) ∧
    (q ∉ S → ∀ y, Reach rm q y → y ∈ s)

/-- Specification of one recursive call of the closure computation at a
given fuel bound: on a good table, a fresh in-universe node, and enough
fuel, it returns a good table extending the old one, with the new node
registered and all previously present bindings untouched. -/
def StepOK (rm : Proj → List Proj) (univ : Finset Proj) (n : Nat)
    (step : Memo → Proj → Memo) : Prop :=
  ∀ m S p, Good rm S m → (∀ q ∈ S, q ∈ domF m) → (∀ q ∈ S, ¬ Reach rm p q) →
    p ∉ domF m → p ∈ univ → (univ \ domF m).card ≤ n →
    Good rm S (step m p) ∧ domF m ⊆ domF (step m p) ∧
    (∀ q ∈ domF m, lookupA (step m p) q = lookupA m q) ∧ p ∈ domF (step m p)

theorem build_refs_loop_good (rm : Proj → List Proj) (univ : Finset Proj)
    (hacyc : Acyclic rm) (hrm : ∀ a b, b ∈ rm a → b ∈ univ)
    (n : Nat) (step : Memo → Proj → Memo) (hstep : StepOK rm univ n step) :
    ∀ (rs : List Proj) (m : Memo) (S : Finset Proj) (p : Proj),
      Good rm (insert p S) m → (∀ q ∈ insert p S, q ∈ domF m) →
      (∀ q ∈ S, ¬ Reach rm p q) → (∀ r ∈ rs, r ∈ rm p) →
      (univ \ domF m).card ≤ n →
      Good rm (insert p S) (build_refs_loop step m p rs) ∧
      domF m ⊆ domF (build_refs_loop step m p rs) ∧
      (∀ q ∈ domF m, q ≠ p → lookupA (build_refs_loop step m p rs) q = lookupA m q) ∧
      (∀ x ∈ entryOf m p, x ∈ entryOf (build_refs_loop step m p rs) p) ∧
      (∀ r ∈ rs, ∀ x, Reach rm r x → x ∈ entryOf (build_refs_loop step m p rs) p) := by
  intro rs
  induction rs with
  | nil =>
    intro m S p hGood hSdom hSp hrs hfuel
    rw [build_refs_loop]
    exact ⟨hGood, Finset.Subset.refl _, fun q _ _ => rfl, fun x hx => hx, fun r hr => absurd hr
      (List.not_mem_nil r)⟩
  | cons r rs ih =>
    intro m S p hGood hSdom hSp hrs hfuel
    have hp : p ∈ domF m := hSdom p (Finset.mem_insert_self p S)
    have hlkp := lookupA_some_of_mem_domF m p hp
    have hGp := hGood p (entryOf m p) hlkp
    have hrp : r ∈ rm p := hrs r (List.mem_cons_self r rs)
    have hrnep : r ≠ p := by
      intro h
      subst h
      exact hacyc r r hrp (reach_refl rm r)
    rw [build_refs_loop]
    by_cases hr : r ∈ entryOf m p
    · rw [if_pos hr]
      have res := ih m S p hGood hSdom hSp (fun q hq => hrs q (List.mem_cons_of_mem r hq)) hfuel
      refine ⟨res.1, res.2.1, res.2.2.1, res.2.2.2.1, ?_⟩
      intro q hq x hx
      rcases List.mem_cons.mp hq with rfl | hq
      · exact res.2.2.2.1 x (hGp.2.2.2.1 q hr hrnep x hx)
      · exact res.2.2.2.2 q hq x hx
    · rw [if_neg hr]
      simp only
      have hm1 : Good rm (insert p S) (if (lookupA m r).isSome then m else step m r) ∧
          domF m ⊆ domF (if (lookupA m r).isSome then m else step m r) ∧
          (∀ q ∈ domF m,
            lookupA (if (lookupA m r).isSome then m else step m r) q = lookupA m q) ∧
          r ∈ domF (if (lookupA m r).isSome then m else step m r) := by
        by_cases hsome : (lookupA m r).isSome
        · rw [if_pos hsome]
          exact ⟨hGood, Finset.Subset.refl _, fun q _ => rfl,
            (isSome_iff_mem_domF m r).mp hsome⟩
        · rw [if_neg hsome]
          have hrdom : r ∉ domF m := fun h => hsome ((isSome_iff_mem_domF m r).mpr h)
          have hSp' : ∀ q ∈ insert p S, ¬ Reach rm r q := by
            intro q hq hreach
            rcases Finset.mem_insert.mp hq with rfl | hq
            · exact hacyc q r hrp hreach
            · exact hSp q hq (reach_head rm hrp hreach)
          exact hstep m (insert p S) r hGood hSdom hSp' hrdom (hrm p r hrp) hfuel
      set m1 := if (lookupA m r).isSome then m else step m r with hm1def
      obtain ⟨hG1, hdom1, hpres1, hrdom1⟩ := hm1
      have hp1 : p ∈ domF m1 := hdom1 hp
      have hentp1 : entryOf m1 p = entryOf m p := by
        rw [entryOf, hpres1 p hp, ← entryOf]
      have hlkr1 := lookupA_some_of_mem_domF m1 r hrdom1
      have hGr1 := hG1 r (entryOf m1 r) hlkr1
      have hGp1 := hG1 p (entryOf m1 p) (lookupA_some_of_mem_domF m1 p hp1)
      have hrS : r ∉ insert p S := by
        intro hmem
        rcases Finset.mem_insert.mp hmem with rfl | hmem
        · exact hrnep rfl
        · exact hSp r hmem (reach_single rm hrp)
      have hrcomplete : ∀ y, Reach rm r y → y ∈ entryOf m1 r := hGr1.2.2.2.2 hrS
      have hdom2 : domF (setA m1 p (entryOf m1 p ∪ entryOf m1 r)) = domF m1 := by
        rw [domF_setA]
        exact Finset.insert_eq_self.mpr hp1
      have hentp2 : entryOf (setA m1 p (entryOf m1 p ∪ entryOf m1 r)) p =
          entryOf m1 p ∪ entryOf m1 r := entryOf_setA_self _ _ _
      have hG2 : Good rm (insert p S) (setA m1 p (entryOf m1 p ∪ entryOf m1 r)) := by
        intro q s hq
        by_cases hqp : q = p
        · subst hqp
          rw [lookupA_setA_self] at hq
          obtain rfl := Option.some.inj hq.symm
          refine ⟨Finset.mem_union_left _ hGp1.1, ?_, ?_, ?_, ?_⟩
          · intro x hx
            rcases Finset.mem_union.mp hx with hx | hx
            · exact hGp1.2.1 x hx
            · exact reach_head rm hrp (hGr1.2.1 x hx)
          · intro x hx
            rw [hdom2]
            rcases Finset.mem_union.mp hx with hx | hx
            · exact hGp1.2.2.1 x hx
            · exact hGr1.2.2.1 x hx
          · intro x hx hxq y hxy
            rcases Finset.mem_union.mp hx with hx | hx
            · exact Finset.mem_union_left _ (hGp1.2.2.2.1 x hx hxq y hxy)
            · by_cases hxr : x = r
              · subst hxr
                exact Finset.mem_union_right _ (hrcomplete y hxy)
              · exact Finset.mem_union_right _ (hGr1.2.2.2.1 x hx hxr y hxy)
          · intro habs
            exact absurd (Finset.mem_insert_self q S) habs
        · rw [lookupA_setA_ne _ _ _ _ hqp] at hq
          have h := hG1 q s hq
          refine ⟨h.1, h.2.1, ?_, h.2.2.2.1, h.2.2.2.2⟩
          intro x hx
          rw [hdom2]
          exact h.2.2.1 x hx
      have hSdom2 : ∀ q ∈ insert p S, q ∈ domF (setA m1 p (entryOf m1 p ∪ entryOf m1 r)) := by
        intro q hq
        rw [hdom2]
        exact hdom1 (hSdom q hq)
      have hfuel2 : (univ \ domF (setA m1 p (entryOf m1 p ∪ entryOf m1 r))).card ≤ n := by
        refine le_trans (Finset.card_le_card ?_) hfuel
        rw [hdom2]
        exact Finset.sdiff_subset_sdiff (Finset.Subset.refl _) (by exact hdom1)
      have res := ih (setA m1 p (entryOf m1 p ∪ entryOf m1 r)) S p hG2 hSdom2 hSp
        (fun q hq => hrs q (List.mem_cons_of_mem r hq)) hfuel2
      refine ⟨res.1, ?_, ?_, ?_, ?_⟩
      · refine subset_trans ?_ res.2.1
        rw [hdom2]
        exact hdom1
      · intro q hq hqnep
        rw [res.2.2.1 q (by rw [hdom2]; exact hdom1 hq) hqnep,
          lookupA_setA_ne _ _ _ _ hqnep, hpres1 q hq]
      · intro x hx
        refine res.2.2.2.1 x ?_
        rw [hentp2]
        exact Finset.mem_union_left _ (by rwa [hentp1])
      · intro q hq x hx
        rcases List.mem_cons.mp hq with rfl | hq
        · refine res.2.2.2.1 x ?_
          rw [hentp2]
          exact Finset.mem_union_right _ (hrcomplete x hx)
        · exact res.2.2.2.2 q hq x hx

theorem build_full_ref_map_good (rm : Proj → List Proj) (univ : Finset Proj)
    (hacyc : Acyclic rm) (hrm : ∀ a b, b ∈ rm a → b ∈ univ) :
    ∀ fuel : Nat, StepOK rm univ fuel (build_full_ref_map rm fuel) := by
  intro fuel
  induction fuel with
  | zero =>
    intro m S p _ _ _ hpdom hpuniv hfuel
    exfalso
    have hmem : p ∈ univ \ domF m := Finset.mem_sdiff.mpr ⟨hpuniv, hpdom⟩
    have hpos : 0 < (univ \ domF m).card := Finset.card_pos.mpr ⟨p, hmem⟩
    omega
  | succ f ih =>
    intro m S p hGood hSdom hSp hpdom hpuniv hfuel
    rw [build_full_ref_map]
    have hdom0 : domF (setA m p {p}) = insert p (domF m) := domF_setA m p {p}
    have hp0 : p ∈ domF (setA m p {p}) := by
      rw [hdom0]
      exact Finset.mem_insert_self p _
    have hG0 : Good rm (insert p S) (setA m p {p}) := by
      intro q s hq
      by_cases hqp : q = p
      · subst hqp
        rw [lookupA_setA_self] at hq
        obtain rfl := Option.some.inj hq.symm
        refine ⟨Finset.mem_singleton_self q, ?_, ?_, ?_, ?_⟩
        · intro x hx
          obtain rfl := Finset.mem_singleton.mp hx
          exact reach_refl rm x
        · intro x hx
          obtain rfl := Finset.mem_singleton.mp hx
          exact hp0
        · intro x hx hxq
          exact absurd (Finset.mem_singleton.mp hx) hxq
        · intro habs
          exact absurd (Finset.mem_insert_self q S) habs
      · rw [lookupA_setA_ne _ _ _ _ hqp] at hq
        have h := hGood q s hq
        refine ⟨h.1, h.2.1, ?_, h.2.2.2.1, ?_⟩
        · intro x hx
          rw [hdom0]
          exact Finset.mem_insert_of_mem (h.2.2.1 x hx)
        · intro hqS
          exact h.2.2.2.2 (fun hmem => hqS (Finset.mem_insert_of_mem hmem))
    have hSdom0 : ∀ q ∈ insert p S, q ∈ domF (setA m p {p}) := by
      intro q hq
      rw [hdom0]
      rcases Finset.mem_insert.mp hq with rfl | hq
      · exact Finset.mem_insert_self q _
      · exact Finset.mem_insert_of_mem (hSdom q hq)
    have hfuel0 : (univ \ domF (setA m p {p})).card ≤ f := by
      rw [hdom0, Finset.sdiff_insert, Finset.card_erase_of_mem
        (Finset.mem_sdiff.mpr ⟨hpuniv, hpdom⟩)]
      omega
    have hloop := build_refs_loop_good rm univ hacyc hrm f _ ih (rm p) (setA m p {p}) S p
      hG0 hSdom0 hSp (fun q hq => hq) hfuel0
    refine ⟨?_, ?_, ?_, ?_⟩
    · -- upgrade from stack `insert p S` to stack `S`: the entry of `p` is
      -- now complete, since every direct reference's reach was merged in.
      intro q s hq
      have h := hloop.1 q s hq
      refine ⟨h.1, h.2.1, h.2.2.1, h.2.2.2.1, ?_⟩
      intro hqS y hqy
      by_cases hqp : q = p
      · have hq' : lookupA (build_refs_loop (build_full_ref_map rm f) (setA m p {p}) p
            (rm p)) p = some s := hqp ▸ hq
        have hentry : entryOf (build_refs_loop (build_full_ref_map rm f) (setA m p {p}) p
            (rm p)) p = s := by
          rw [entryOf, hq']
          rfl
        have hpy : Reach rm p y := hqp ▸ hqy
        rcases reach_cases hpy with heq | ⟨c, hc, hcy⟩
        · rw [← heq]
          exact hqp ▸ h.1
        · have := hloop.2.2.2.2 c hc y hcy
          rwa [hentry] at this
      · exact h.2.2.2.2 (fun hmem => by
          rcases Finset.mem_insert.mp hmem with h1 | h1
          · exact hqp h1
          · exact hqS h1) y hqy
    · refine subset_trans ?_ hloop.2.1
      rw [hdom0]
      exact Finset.subset_insert _ _
    · intro q hq
      have hqnep : q ≠ p := fun h => hpdom (h ▸ hq)
      rw [hloop.2.2.1 q (by rw [hdom0]; exact Finset.mem_insert_of_mem hq) hqnep,
        lookupA_setA_ne _ _ _ _ hqnep]
    · exact hloop.2.1 hp0

/-- Top-level fold of `run_data_collection`: on an acyclic graph, with
universe-sized fuel, the resulting table is good with an empty stack and
registers every processed project. -/
theorem build_all_full_ref_maps_good (rm : Proj → List Proj) (univ : Finset Proj)
    (order : List Proj) (fuel : Nat)
    (hacyc : Acyclic rm) (hrm : ∀ a b, b ∈ rm a → b ∈ univ)
    (horder : ∀ p ∈ order, p ∈ univ) (hfuel : univ.card ≤ fuel) :
    Good rm ∅ (build_all_full_ref_maps rm fuel order) ∧
    ∀ p ∈ order, p ∈ domF (build_all_full_ref_maps rm fuel order) := by
  have main : ∀ (l : List Proj), (∀ p ∈ l, p ∈ univ) → ∀ m : Memo, Good rm ∅ m →
      (univ \ domF m).card ≤ fuel →
      Good rm ∅ (l.foldl
        (fun m p => if (lookupA m p).isSome then m else build_full_ref_map rm fuel m p) m) ∧
      domF m ⊆ domF (l.foldl
        (fun m p => if (lookupA m p).isSome then m else build_full_ref_map rm fuel m p) m) ∧
      ∀ p ∈ l, p ∈ domF (l.foldl
        (fun m p => if (lookupA m p).isSome then m else build_full_ref_map rm fuel m p) m) := by
    intro l
    induction l with
    | nil =>
      intro _ m hG _
      exact ⟨hG, Finset.Subset.refl _, fun p hp => absurd hp (List.not_mem_nil p)⟩
    | cons p l ihl =>
      intro hl m hG hfl
      rw [List.foldl_cons]
      by_cases hsome : (lookupA m p).isSome
      · rw [if_pos hsome]
        have res := ihl (fun q hq => hl q (List.mem_cons_of_mem p hq)) m hG hfl
        refine ⟨res.1, res.2.1, ?_⟩
        intro q hq
        rcases List.mem_cons.mp hq with rfl | hq
        · exact res.2.1 ((isSome_iff_mem_domF m q).mp hsome)
        · exact res.2.2 q hq
      · rw [if_neg hsome]
        have hpdom : p ∉ domF m := fun h => hsome ((isSome_iff_mem_domF m p).mpr h)
        have hstep := build_full_ref_map_good rm univ hacyc hrm fuel m ∅ p hG
          (fun q hq => absurd hq (Finset.not_mem_empty q))
          (fun q hq => absurd hq (Finset.not_mem_empty q))
          hpdom (hl p (List.mem_cons_self p l)) hfl
        have hfl' : (univ \ domF (build_full_ref_map rm fuel m p)).card ≤ fuel :=
          le_trans (Finset.card_le_card
            (Finset.sdiff_subset_sdiff (Finset.Subset.refl _) hstep.2.1)) hfl
        have res := ihl (fun q hq => hl q (List.mem_cons_of_mem p hq)) _ hstep.1 hfl'
        refine ⟨res.1, subset_trans hstep.2.1 res.2.1, ?_⟩
        intro q hq
        rcases List.mem_cons.mp hq with rfl | hq
        · exact res.2.1 hstep.2.2.2
        · exact res.2.2 q hq
  have h0 : Good rm ∅ ([] : Memo) := by
    intro q s hq
    simp [lookupA] at hq
  have hd0 : (univ \ domF ([] : Memo)).card ≤ fuel := by
    simpa [domF] using hfuel
  obtain ⟨hG, _, hdom⟩ := main order horder [] h0 hd0
  exact ⟨hG, hdom⟩

/-- On an acyclic graph, a registered project's computed entry is exactly
its reachability set. -/
theorem build_all_entry_iff_reach (rm : Proj → List Proj) (univ : Finset Proj)
    (order : List Proj) (fuel : Nat)
    (hacyc : Acyclic rm) (hrm : ∀ a b, b ∈ rm a → b ∈ univ)
    (horder : ∀ p ∈ order, p ∈ univ) (hfuel : univ.card ≤ fuel)
    (P : Proj) (hP : P ∈ domF (build_all_full_ref_maps rm fuel order)) :
    ∀ x, x ∈ entryOf (build_all_full_ref_maps rm fuel order) P ↔ Reach rm P x := by
  intro x
  have hG := (build_all_full_ref_maps_good rm univ order fuel hacyc hrm horder hfuel).1
  have h := hG P (entryOf (build_all_full_ref_maps rm fuel order) P)
    (lookupA_some_of_mem_domF _ P hP)
  exact ⟨fun hx => h.2.1 x hx, fun hx => h.2.2.2.2 (Finset.not_mem_empty P) x hx⟩

/-- Every element of a computed entry is itself registered in the table. -/
theorem build_all_entry_mem_domF (rm : Proj → List Proj) (univ : Finset Proj)
    (order : List Proj) (fuel : Nat)
    (hacyc : Acyclic rm) (hrm : ∀ a b, b ∈ rm a → b ∈ univ)
    (horder : ∀ p ∈ order, p ∈ univ) (hfuel : univ.card ≤ fuel)
    (P x : Proj) (hx : x ∈ entryOf (build_all_full_ref_maps rm fuel order) P) :
    x ∈ domF (build_all_full_ref_maps rm fuel order) := by
  have hG := (build_all_full_ref_maps_good rm univ order fuel hacyc hrm horder hfuel).1
  rcases hopt : lookupA (build_all_full_ref_maps rm fuel order) P with _ | s
  · rw [entryOf, hopt] at hx
    simp at hx
  · have h := hG P s hopt
    rw [entryOf, hopt] at hx
    exact h.2.2.1 x hx

/-- Every direct reference of a processed project ends up registered in the
computed table (acyclic case). -/
theorem build_all_refs_domF (rm : Proj → List Proj) (univ : Finset Proj)
    (order : List Proj) (fuel : Nat)
    (hacyc : Acyclic rm) (hrm : ∀ a b, b ∈ rm a → b ∈ univ)
    (horder : ∀ p ∈ order, p ∈ univ) (hfuel : univ.card ≤ fuel)
    (P : Proj) (hP : P ∈ order) :
    ∀ r ∈ rm P, r ∈ domF (build_all_full_ref_maps rm fuel order) := by
  intro r hr
  have hPdom : P ∈ domF (build_all_full_ref_maps rm fuel order) :=
    (build_all_full_ref_maps_good rm univ order fuel hacyc hrm horder hfuel).2 P hP
  refine build_all_entry_mem_domF rm univ order fuel hacyc hrm horder hfuel P r ?_
  exact (build_all_entry_iff_reach rm univ order fuel hacyc hrm horder hfuel P hPdom r).mpr
    (reach_single rm hr)

/-- Any reachability fact through a direct reference of `P` is witnessed by
a member of the computed minimal reference set of `P` (acyclic case): the
pairwise redundancy policy of `_build_min_ref_map` never drops a reference
without an antisymmetry-maximal kept reference covering it. -/
theorem min_refs_cover (rm : Proj → List Proj) (univ : Finset Proj)
    (order : List Proj) (fuel : Nat)
    (hacyc : Acyclic rm) (hrm : ∀ a b, b ∈ rm a → b ∈ univ)
    (horder : ∀ p ∈ order, p ∈ univ) (hfuel : univ.card ≤ fuel)
    (P : Proj) (hP : P ∈ order) :
    ∀ r ∈ rm P, ∀ x, Reach rm r x →
      ∃ s ∈ min_refs (build_all_full_ref_maps rm fuel order) (rm P),
        x ∈ entryOf (build_all_full_ref_maps rm fuel order) s := by
  have hrefdom := build_all_refs_domF rm univ order fuel hacyc hrm horder hfuel P hP
  have hiff : ∀ r, r ∈ domF (build_all_full_ref_maps rm fuel order) →
      ∀ x, x ∈ entryOf (build_all_full_ref_maps rm fuel order) r ↔ Reach rm r x :=
    fun r hr => build_all_entry_iff_reach rm univ order fuel hacyc hrm horder hfuel r hr
  intro r hr x hx
  have key : ∀ n, ∀ r, r ∈ rm P → Reach rm r x →
      ({o | o ∈ rm P ∧ o ≠ r ∧ Reach rm o r}).ncard < n →
      ∃ s ∈ min_refs (build_all_full_ref_maps rm fuel order) (rm P),
        x ∈ entryOf (build_all_full_ref_maps rm fuel order) s := by
    intro n
    induction n with
    | zero =>
      intro r _ _ habs
      omega
    | succ n ihn =>
      intro r hr hrx hcard
      by_cases hred : isRedundantIn (build_all_full_ref_maps rm fuel order) (rm P) r = true
      · rw [isRedundantIn, List.any_eq_true] at hred
        obtain ⟨o, ho, hcond⟩ := hred
        rw [Bool.and_eq_true, decide_eq_true_iff, decide_eq_true_iff] at hcond
        obtain ⟨honer, hro⟩ := hcond
        have hodom : o ∈ domF (build_all_full_ref_maps rm fuel order) := hrefdom o ho
        have horeach : Reach rm o r := (hiff o hodom r).mp hro
        have hsub : {z | z ∈ rm P ∧ z ≠ o ∧ Reach rm z o} ⊆
            {z | z ∈ rm P ∧ z ≠ r ∧ Reach rm z r} := by
          rintro z ⟨hz1, hz2, hz3⟩
          refine ⟨hz1, ?_, reach_trans hz3 horeach⟩
          intro hzr
          rw [hzr] at hz3
          exact honer (reach_antisymm hacyc horeach hz3)
        have hmemr : o ∈ {z | z ∈ rm P ∧ z ≠ r ∧ Reach rm z r} := ⟨ho, honer, horeach⟩
        have hnmem : o ∉ {z | z ∈ rm P ∧ z ≠ o ∧ Reach rm z o} := by
          rintro ⟨_, h2, _⟩
          exact h2 rfl
        have hssub : {z | z ∈ rm P ∧ z ≠ o ∧ Reach rm z o} ⊂
            {z | z ∈ rm P ∧ z ≠ r ∧ Reach rm z r} :=
          (Set.ssubset_iff_of_subset hsub).mpr ⟨o, hmemr, hnmem⟩
        have hfin : {z | z ∈ rm P ∧ z ≠ r ∧ Reach rm z r}.Finite :=
          Set.Finite.subset (List.finite_toSet (rm P)) (fun z hz => hz.1)
        have hlt := Set.ncard_lt_ncard hssub hfin
        exact ihn o ho (reach_trans horeach hrx) (by omega)
      · refine ⟨r, ?_, (hiff r (hrefdom r hr) x).mpr hrx⟩
        rw [min_refs, List.mem_filter]
        exact ⟨hr, by rw [Bool.not_eq_true'] at *; rw [Bool.not_eq_true] at hred; simp [hred]⟩
  exact key (({o | o ∈ rm P ∧ o ≠ r ∧ Reach rm o r}).ncard + 1) r hr hx (by omega)

/-! ### Facts about the concrete acyclic graph `rmChain` -/

theorem reach_rmChain_from0 : ∀ x, Reach rmChain 0 x → x = 0 := by
  intro x h
  induction h with
  | refl => rfl
  | tail h1 h2 ih =>
    rw [ih] at h2
    simp [rmChain] at h2

theorem reach_rmChain_from1 : ∀ x, Reach rmChain 1 x → x = 1 ∨ x = 0 := by
  intro x h
  induction h with
  | refl => exact Or.inl rfl
  | tail h1 h2 ih =>
    rcases ih with h | h
    · rw [h] at h2
      simp [rmChain] at h2
      exact Or.inr h2
    · rw [h] at h2
      simp [rmChain] at h2

theorem rmChain_acyclic : Acyclic rmChain := by
  intro a b hb hreach
  by_cases h2 : a = 2
  · subst h2
    simp [rmChain] at hb
    rcases hb with rfl | rfl
    · rcases reach_rmChain_from1 _ hreach with h | h <;> exact absurd h (by decide)
    · have h := reach_rmChain_from0 _ hreach
      exact absurd h (by decide)
  · by_cases h1 : a = 1
    · subst h1
      simp [rmChain, h2] at hb
      subst hb
      have h := reach_rmChain_from0 _ hreach
      exact absurd h (by decide)
    · simp [rmChain, h2, h1] at hb

theorem rmChain_refs_univ : ∀ a b, b ∈ rmChain a → b ∈ ({0, 1, 2} : Finset Proj) := by
  intro a b hb
  by_cases h2 : a = 2
  · subst h2
    simp [rmChain] at hb
    rcases hb with rfl | rfl <;> decide
  · by_cases h1 : a = 1
    · subst h1
      simp [rmChain, h2] at hb
      subst hb
      decide
    · simp [rmChain, h2, h1] at hb

/-! ### Claim C1 -/

/-- C1 (counterexample): on the cyclic graph `0 → 1 → 2 → 0` processed in
order `[0, 1, 2]`, the computed minimal reference set of project 2 is `[0]`,
yet `closureOf(2) ≠ {2} ∪ closureOf(0)` — the pre-registration trick
under-populates the closure of a node inside a cycle, so the reduction does
not reproduce the exact closure as the claim states for every project. -/
theorem c1_counterexample :
    min_refs (build_all_full_ref_maps rmCycle3 10 [0, 1, 2]) (rmCycle3 2) = [0] ∧
    entryOf (build_all_full_ref_maps rmCycle3 10 [0, 1, 2]) 2 ≠
      {2} ∪ entryOf (build_all_full_ref_maps rmCycle3 10 [0, 1, 2]) 0 := by
  decide

/-- C1 (amended): on *acyclic* reference graphs, for every processed project
`P`, the computed closure satisfies
`closureOf(P) = {P} ∪ ⋃ r ∈ minimalRefsOf(P), closureOf(r)`:
the minimal reference set reproduces the exact closure. -/
theorem c1_reduction_preserves_closure_acyclic (rm : Proj → List Proj) (univ : Finset Proj)
    (order : List Proj) (fuel : Nat) (P : Proj)
    (hacyc : Acyclic rm) (hrm : ∀ a b, b ∈ rm a → b ∈ univ)
    (horder : ∀ p ∈ order, p ∈ univ) (hfuel : univ.card ≤ fuel)
    (hP : P ∈ order) :
    ∀ x, x ∈ entryOf (build_all_full_ref_maps rm fuel order) P ↔
      x = P ∨ ∃ s ∈ min_refs (build_all_full_ref_maps rm fuel order) (rm P),
        x ∈ entryOf (build_all_full_ref_maps rm fuel order) s := by
  intro x
  have hPdom : P ∈ domF (build_all_full_ref_maps rm fuel order) :=
    (build_all_full_ref_maps_good rm univ order fuel hacyc hrm horder hfuel).2 P hP
  constructor
  · intro hx
    have hreach :=
      (build_all_entry_iff_reach rm univ order fuel hacyc hrm horder hfuel P hPdom x).mp hx
    rcases reach_cases hreach with heq | ⟨r, hr, hrx⟩
    · exact Or.inl heq.symm
    · exact Or.inr (min_refs_cover rm univ order fuel hacyc hrm horder hfuel P hP r hr x hrx)
  · rintro (rfl | ⟨s, hsmin, hx⟩)
    · exact (build_all_entry_iff_reach rm univ order fuel hacyc hrm horder hfuel x hPdom x).mpr
        (reach_refl rm x)
    · have hs : s ∈ rm P := by
        rw [min_refs, List.mem_filter] at hsmin
        exact hsmin.1
      have hsdom := build_all_refs_domF rm univ order fuel hacyc hrm horder hfuel P hP s hs
      have hsreach :=
        (build_all_entry_iff_reach rm univ order fuel hacyc hrm horder hfuel s hsdom x).mp hx
      exact (build_all_entry_iff_reach rm univ order fuel hacyc hrm horder hfuel P hPdom x).mpr
        (reach_head rm hs hsreach)

/-- C1 (witness): the amended equivalence instantiated on the concrete
acyclic graph `rmChain` at project 2 and element 0. -/
theorem c1_witness :
    0 ∈ entryOf (build_all_full_ref_maps rmChain 3 [0, 1, 2]) 2 ↔
      0 = 2 ∨ ∃ s ∈ min_refs (build_all_full_ref_maps rmChain 3 [0, 1, 2]) (rmChain 2),
        0 ∈ entryOf (build_all_full_ref_maps rmChain 3 [0, 1, 2]) s :=
  c1_reduction_preserves_closure_acyclic rmChain {0, 1, 2} [0, 1, 2] 3 2 rmChain_acyclic
    rmChain_refs_univ (by decide) (by decide) (by decide) 0

/-! ### Claim C3 -/

/-- C3 (counterexample): on the cyclic graph `0 → 1 → 2 → 0` processed in
order `[0, 1, 2]`, project 0 is a direct reference of project 2, but the
computed `closureOf(0)` is not contained in `closureOf(2)`: monotonicity
fails on cyclic inputs. -/
theorem c3_counterexample :
    (0 ∈ rmCycle3 2) ∧
    ¬ (entryOf (build_all_full_ref_maps rmCycle3 10 [0, 1, 2]) 0 ⊆
        entryOf (build_all_full_ref_maps rmCycle3 10 [0, 1, 2]) 2) := by
  decide

/-- C3 (amended): on *acyclic* reference graphs, if `Q` is a direct
reference of a processed project `P` then `closureOf(Q) ⊆ closureOf(P)`. -/
theorem c3_closure_monotone_acyclic (rm : Proj → List Proj) (univ : Finset Proj)
    (order : List Proj) (fuel : Nat) (P Q : Proj)
    (hacyc : Acyclic rm) (hrm : ∀ a b, b ∈ rm a → b ∈ univ)
    (horder : ∀ p ∈ order, p ∈ univ) (hfuel : univ.card ≤ fuel)
    (hP : P ∈ order) (hQ : Q ∈ rm P) :
    entryOf (build_all_full_ref_maps rm fuel order) Q ⊆
      entryOf (build_all_full_ref_maps rm fuel order) P := by
  intro x hx
  have hPdom : P ∈ domF (build_all_full_ref_maps rm fuel order) :=
    (build_all_full_ref_maps_good rm univ order fuel hacyc hrm horder hfuel).2 P hP
  have hQdom := build_all_refs_domF rm univ order fuel hacyc hrm horder hfuel P hP Q hQ
  have hQreach :=
    (build_all_entry_iff_reach rm univ order fuel hacyc hrm horder hfuel Q hQdom x).mp hx
  exact (build_all_entry_iff_reach rm univ order fuel hacyc hrm horder hfuel P hPdom x).mpr
    (reach_head rm hQ hQreach)

/-- C3 (witness): monotonicity instantiated on the concrete acyclic graph
`rmChain` for the edge from project 2 to its direct reference 1. -/
theorem c3_witness :
    entryOf (build_all_full_ref_maps rmChain 3 [0, 1, 2]) 1 ⊆
      entryOf (build_all_full_ref_maps rmChain 3 [0, 1, 2]) 2 :=
  c3_closure_monotone_acyclic rmChain {0, 1, 2} [0, 1, 2] 3 2 1 rmChain_acyclic
    rmChain_refs_univ (by decide) (by decide) (by decide) (by decide)

/-! ### Fuel independence: the recursion of `_build_full_ref_map` terminates -/

theorem build_refs_loop_congr (univ : Finset Proj) (f : Nat)
    (step1 step2 : Memo → Proj → Memo)
    (hdom : ∀ m q, domF m ⊆ domF (step1 m q))
    (heq : ∀ m q, q ∈ univ → q ∉ domF m → (univ \ domF m).card ≤ f → step1 m q = step2 m q) :
    ∀ (rs : List Proj) (m : Memo) (p : Proj), (∀ r ∈ rs, r ∈ univ) →
      (univ \ domF m).card ≤ f →
      build_refs_loop step1 m p rs = build_refs_loop step2 m p rs := by
  intro rs
  induction rs with
  | nil =>
    intro m p _ _
    rw [build_refs_loop, build_refs_loop]
  | cons r rs ih =>
    intro m p hrs hfl
    rw [build_refs_loop, build_refs_loop]
    by_cases hr : r ∈ entryOf m p
    · rw [if_pos hr, if_pos hr]
      exact ih m p (fun q hq => hrs q (List.mem_cons_of_mem r hq)) hfl
    · rw [if_neg hr, if_neg hr]
      simp only
      by_cases hsome : (lookupA m r).isSome
      · rw [if_pos hsome, if_pos hsome]
        refine ih _ p (fun q hq => hrs q (List.mem_cons_of_mem r hq)) ?_
        refine le_trans (Finset.card_le_card
          (Finset.sdiff_subset_sdiff (Finset.Subset.refl _) ?_)) hfl
        rw [domF_setA]
        exact Finset.subset_insert _ _
      · rw [if_neg hsome, if_neg hsome]
        have hrdom : r ∉ domF m := fun h => hsome ((isSome_iff_mem_domF m r).mpr h)
        rw [← heq m r (hrs r (List.mem_cons_self r rs)) hrdom hfl]
        refine ih _ p (fun q hq => hrs q (List.mem_cons_of_mem r hq)) ?_
        refine le_trans (Finset.card_le_card
          (Finset.sdiff_subset_sdiff (Finset.Subset.refl _) ?_)) hfl
        rw [domF_setA]
        exact subset_trans (hdom m r) (Finset.subset_insert _ _)

theorem build_full_ref_map_fuel_indep (rm : Proj → List Proj) (univ : Finset Proj)
    (hrm : ∀ a b, b ∈ rm a → b ∈ univ) :
    ∀ (f g : Nat), f ≤ g → ∀ (m : Memo) (p : Proj), p ∈ univ → p ∉ domF m →
      (univ \ domF m).card ≤ f →
      build_full_ref_map rm f m p = build_full_ref_map rm g m p := by
  intro f
  induction f with
  | zero =>
    intro g _ m p hpu hpd hfl
    exfalso
    have hmem : p ∈ univ \ domF m := Finset.mem_sdiff.mpr ⟨hpu, hpd⟩
    have hpos : 0 < (univ \ domF m).card := Finset.card_pos.mpr ⟨p, hmem⟩
    omega
  | succ f ih =>
    intro g hfg m p hpu hpd hfl
    obtain ⟨g', rfl⟩ : ∃ g', g = g' + 1 := ⟨g - 1, by omega⟩
    rw [build_full_ref_map, build_full_ref_map]
    refine build_refs_loop_congr univ f (build_full_ref_map rm f) (build_full_ref_map rm g')
      (build_full_ref_map_dom rm f)
      (fun m' q hqu hqd hfl' => ih g' (by omega) m' q hqu hqd hfl')
      (rm p) _ p (fun r hr => hrm p r hr) ?_
    rw [domF_setA, Finset.sdiff_insert, Finset.card_erase_of_mem
      (Finset.mem_sdiff.mpr ⟨hpu, hpd⟩)]
    omega

theorem build_all_full_ref_maps_fuel_indep_le (rm : Proj → List Proj) (univ : Finset Proj)
    (order : List Proj) (hrm : ∀ a b, b ∈ rm a → b ∈ univ)
    (horder : ∀ p ∈ order, p ∈ univ) :
    ∀ f g, univ.card ≤ f → f ≤ g →
      build_all_full_ref_maps rm f order = build_all_full_ref_maps rm g order := by
  intro f g hf hfg
  have main : ∀ (l : List Proj), (∀ p ∈ l, p ∈ univ) → ∀ m : Memo,
      (univ \ domF m).card ≤ f →
      l.foldl (fun m p => if (lookupA m p).isSome then m else build_full_ref_map rm f m p) m =
      l.foldl (fun m p => if (lookupA m p).isSome then m else build_full_ref_map rm g m p) m := by
    intro l
    induction l with
    | nil =>
      intro _ m _
      rfl
    | cons p l ihl =>
      intro hl m hfl
      rw [List.foldl_cons, List.foldl_cons]
      by_cases hsome : (lookupA m p).isSome
      · rw [if_pos hsome, if_pos hsome]
        exact ihl (fun q hq => hl q (List.mem_cons_of_mem p hq)) m hfl
      · rw [if_neg hsome, if_neg hsome]
        have hpd : p ∉ domF m := fun h => hsome ((isSome_iff_mem_domF m p).mpr h)
        rw [← build_full_ref_map_fuel_indep rm univ hrm f g hfg m p
          (hl p (List.mem_cons_self p l)) hpd hfl]
        refine ihl (fun q hq => hl q (List.mem_cons_of_mem p hq)) _ ?_
        exact le_trans (Finset.card_le_card (Finset.sdiff_subset_sdiff
          (Finset.Subset.refl _) (build_full_ref_map_dom rm f m p))) hfl
  have h0 : (univ \ domF ([] : Memo)).card ≤ f := by
    simpa [domF] using hf
  exact main order horder [] h0

/-! ### Claim C4 -/

/-- C4: closure computation terminates on every finite reference graph,
cyclic ones included: any two fuel values of at least the universe size
yield the same memo table, so the source recursion (whose depth is exactly
the number of projects first inserted along the call chain) reaches a
fixed result; and on the two-project cycle `0 ↔ 1` both closures compute
to `{0, 1}` under either processing order. -/
theorem c4_cycle_termination :
    (∀ (rm : Proj → List Proj) (univ : Finset Proj) (order : List Proj) (f g : Nat),
      (∀ a b, b ∈ rm a → b ∈ univ) → (∀ p ∈ order, p ∈ univ) →
      univ.card ≤ f → univ.card ≤ g →
      build_all_full_ref_maps rm f order = build_all_full_ref_maps rm g order) ∧
    entryOf (build_all_full_ref_maps rmCycle2 5 [0, 1]) 0 = {0, 1} ∧
    entryOf (build_all_full_ref_maps rmCycle2 5 [0, 1]) 1 = {0, 1} ∧
    entryOf (build_all_full_ref_maps rmCycle2 5 [1, 0]) 0 = {0, 1} ∧
    entryOf (build_all_full_ref_maps rmCycle2 5 [1, 0]) 1 = {0, 1} := by
  constructor
  · intro rm univ order f g hrm horder hf hg
    rcases le_total f g with h | h
    · exact build_all_full_ref_maps_fuel_indep_le rm univ order hrm horder f g hf h
    · exact (build_all_full_ref_maps_fuel_indep_le rm univ order hrm horder g f hg h).symm
  · exact ⟨by decide, by decide, by decide, by decide⟩

theorem rmCycle2_refs_univ : ∀ a b, b ∈ rmCycle2 a → b ∈ ({0, 1} : Finset Proj) := by
  intro a b hb
  by_cases h0 : a = 0
  · subst h0
    simp [rmCycle2] at hb
    subst hb
    decide
  · by_cases h1 : a = 1
    · subst h1
      simp [rmCycle2, h0] at hb
      subst hb
      decide
    · simp [rmCycle2, h0, h1] at hb

/-- C4 (witness): fuel independence instantiated on the two-project cycle. -/
theorem c4_witness :
    build_all_full_ref_maps rmCycle2 2 [0, 1] = build_all_full_ref_maps rmCycle2 7 [0, 1] :=
  c4_cycle_termination.1 rmCycle2 {0, 1} [0, 1] 2 7 rmCycle2_refs_univ (by decide)
    (by decide) (by decide)

/-! ### Claim C2 -/

/-- C2 (counterexample): project 2's direct references 0 and 1 lie on a
common cycle — each is in the computed closure of the other — and 2 has no
third direct reference, yet `_build_min_ref_map` computes an *empty*
minimal reference set for 2: both references are dropped, not kept. -/
theorem c2_counterexample :
    (0 ∈ entryOf (build_all_full_ref_maps rmPair 9 [0, 1, 2]) 1) ∧
    (1 ∈ entryOf (build_all_full_ref_maps rmPair 9 [0, 1, 2]) 0) ∧
    rmPair 2 = [0, 1] ∧
    min_refs (build_all_full_ref_maps rmPair 9 [0, 1, 2]) (rmPair 2) = [] := by
  decide

/-- C2 (amended): two distinct direct references of a project that each lie
in the computed closure of the other are *both excluded* by the pairwise
redundancy policy of `_build_min_ref_map`: the minimal reference set keeps
neither of them. -/
theorem c2_mutually_redundant_both_dropped (full : Memo) (refs : List Proj) (r r' : Proj)
    (hr : r ∈ refs) (hr' : r' ∈ refs) (hne : r ≠ r')
    (h1 : r ∈ entryOf full r') (h2 : r' ∈ entryOf full r) :
    r ∉ min_refs full refs ∧ r' ∉ min_refs full refs := by
  constructor
  · intro hmem
    rw [min_refs, List.mem_filter] at hmem
    have hred : isRedundantIn full refs r = true := by
      rw [isRedundantIn, List.any_eq_true]
      refine ⟨r', hr', ?_⟩
      rw [Bool.and_eq_true]
      exact ⟨decide_eq_true (Ne.symm hne), decide_eq_true h1⟩
    rw [hred] at hmem
    simp at hmem
  · intro hmem
    rw [min_refs, List.mem_filter] at hmem
    have hred : isRedundantIn full refs r' = true := by
      rw [isRedundantIn, List.any_eq_true]
      refine ⟨r, hr, ?_⟩
      rw [Bool.and_eq_true]
      exact ⟨decide_eq_true hne, decide_eq_true h2⟩
    rw [hred] at hmem
    simp at hmem

/-- C2 (witness): the amended exclusion instantiated on the concrete
two-cycle consumer graph. -/
theorem c2_witness :
    0 ∉ min_refs (build_all_full_ref_maps rmPair 9 [0, 1, 2]) (rmPair 2) ∧
    1 ∉ min_refs (build_all_full_ref_maps rmPair 9 [0, 1, 2]) (rmPair 2) :=
  c2_mutually_redundant_both_dropped (build_all_full_ref_maps rmPair 9 [0, 1, 2]) (rmPair 2)
    0 1 (by decide) (by decide) (by decide) (by decide) (by decide)

/-! ### Claim C6 -/

instance : IsTotal (Proj × Nat) (fun a b => b.2 ≤ a.2) :=
  ⟨fun a b => le_total b.2 a.2⟩

instance : IsTrans (Proj × Nat) (fun a b => b.2 ≤ a.2) :=
  ⟨fun _ _ _ hab hbc => le_trans hbc hab⟩

theorem filter_time_orderedInsert (d : Nat) (x : Proj × Nat) :
    ∀ l : List (Proj × Nat),
      (List.orderedInsert (fun a b => b.2 ≤ a.2) x l).filter (fun e => decide (e.2 = d)) =
        if x.2 = d then x :: l.filter (fun e => decide (e.2 = d))
        else l.filter (fun e => decide (e.2 = d)) := by
  intro l
  induction l with
  | nil =>
    by_cases hx : x.2 = d
    · simp [List.orderedInsert, hx]
    · simp [List.orderedInsert, hx]
  | cons y ys ih =>
    rw [List.orderedInsert]
    by_cases hr : y.2 ≤ x.2
    · rw [if_pos hr]
      by_cases hx : x.2 = d
      · simp [List.filter_cons, hx]
      · simp [List.filter_cons, hx]
    · rw [if_neg hr]
      have hy : ¬ y.2 = d ∨ ¬ x.2 = d := by
        by_cases hx : x.2 = d
        · left
          intro hyd
          exact hr (le_of_eq (hyd.trans hx.symm))
        · right
          exact hx
      by_cases hyd : y.2 = d
      · have hx : ¬ x.2 = d := by
          rcases hy with h | h
          · exact absurd hyd h
          · exact h
        simp [List.filter_cons, hyd, ih, hx]
      · by_cases hx : x.2 = d
        · simp [List.filter_cons, hyd, ih, hx]
        · simp [List.filter_cons, hyd, ih, hx]

theorem filter_time_sortByTimeDesc (d : Nat) :
    ∀ l : List (Proj × Nat),
      (sortByTimeDesc l).filter (fun e => decide (e.2 = d)) =
        l.filter (fun e => decide (e.2 = d)) := by
  intro l
  rw [sortByTimeDesc]
  induction l with
  | nil => rfl
  | cons x xs ih =>
    rw [List.insertionSort, filter_time_orderedInsert]
    by_cases hx : x.2 = d
    · rw [if_pos hx, ih, List.filter_cons, if_pos (decide_eq_true hx)]
    · rw [if_neg hx, ih, List.filter_cons, if_neg (by simpa using hx)]

/-- C6 (counterexample): two internal projects share the same duration and
the timing map lists project 5 before project 3; the code's stable
descending sort keeps attachment order, so `rankByDuration(2)` returns
`[5, 3]`, not the identifier-ordered `[3, 5]` the tie-break claim demands. -/
theorem c6_counterexample :
    create_build_time_leaderboard [(5, 100), (3, 100)] [3, 5] 2 = [5, 3] ∧
    ([5, 3] : List Proj) ≠ [3, 5] := by
  decide

/-- C6 (amended): `rankByDuration(n)` takes the first `n` internal projects
of the *stable* descending duration sort of the timing map: durations
descend pairwise along the sort, projects of any fixed duration keep their
attachment order (the timing map's insertion order, not identifier order),
only internal projects are returned, and Scenario C
(`{X:500, Y:300, Z:900} ⟹ rankByDuration(2) = [Z, X]`) holds. -/
theorem c6_leaderboard_stable_desc :
    (∀ btm : List (Proj × Nat), List.Pairwise (fun a b => b.2 ≤ a.2) (sortByTimeDesc btm)) ∧
    (∀ (btm : List (Proj × Nat)) (d : Nat),
      (sortByTimeDesc btm).filter (fun e => decide (e.2 = d)) =
        btm.filter (fun e => decide (e.2 = d))) ∧
    (∀ (btm : List (Proj × Nat)) (internal : List Proj) (n : Nat),
      ∀ p ∈ create_build_time_leaderboard btm internal n, p ∈ internal) ∧
    create_build_time_leaderboard [(0, 500), (1, 300), (2, 900)] [0, 1, 2] 2 = [2, 0] := by
  refine ⟨?_, ?_, ?_, by decide⟩
  · intro btm
    exact List.sorted_insertionSort _ btm
  · intro btm d
    exact filter_time_sortByTimeDesc d btm
  · intro btm internal n p hp
    rw [create_build_time_leaderboard] at hp
    have hp' := List.mem_of_mem_take hp
    rw [List.mem_filter] at hp'
    exact of_decide_eq_true hp'.2


/-! ### Claim C7 -/

theorem strContains_infix_iff (needle : List Char) :
    ∀ hay, strContains needle hay = true ↔ needle <:+: hay := by
  intro hay
  induction hay with
  | nil => rw [strContains, List.isEmpty_iff, List.infix_nil]
  | cons c rest ih =>
    rw [strContains, Bool.or_eq_true, ih, List.infix_cons_iff, List.isPrefixOf_iff_prefix]

/-- Characterization of the red ("unused") edges emitted by
`_add_graph_edges`: an edge `r → p` is emitted red exactly when both
endpoints are displayed and unhidden, `r` is a minimal reference of `p`,
and some output file of `r` prefixed with the path separator occurs as a
substring of `p`'s retained unused-library text. -/
theorem mem_add_graph_edges_red (minRefMap : Proj → List Proj)
    (projectOutputMap : Proj → Option (List (List Char)))
    (unusedLibsMap : Proj → Option (List Char))
    (display hidden : List Proj) (r p : Proj) :
    GEdge.mk r p (.colored "#ff0000") ∈
        add_graph_edges minRefMap projectOutputMap unusedLibsMap display hidden ↔
      p ∈ display ∧ r ∈ minRefMap p ∧ r ∈ display ∧ p ∉ hidden ∧ r ∉ hidden ∧
        ∃ outs txt, projectOutputMap r = some outs ∧ unusedLibsMap p = some txt ∧
          ∃ o ∈ outs, ('\\' :: o) <:+: txt := by
  rw [add_graph_edges, List.mem_flatMap]
  constructor
  · rintro ⟨q, hq, hmem⟩
    rw [List.mem_filterMap] at hmem
    obtain ⟨s, hs, heq⟩ := hmem
    by_cases hd : s ∈ display
    · rw [if_pos hd] at heq
      by_cases hh : q ∈ hidden ∨ s ∈ hidden
      · rw [if_pos hh] at heq
        simp only [Option.some.injEq, GEdge.mk.injEq] at heq
        exact EdgeStyle.noConfusion heq.2.2
      · rw [if_neg hh] at heq
        simp only [Option.some.injEq, GEdge.mk.injEq] at heq
        obtain ⟨rfl, rfl, hcol⟩ := heq
        have hu : (match projectOutputMap s, unusedLibsMap q with
            | some outs, some txt => outs.any (fun o => strContains ('\\' :: o) txt)
            | _, _ => false) = true := by
          by_contra hu
          rw [Bool.not_eq_true] at hu
          rw [hu] at hcol
          simp only [if_false, Bool.false_eq_true] at hcol
          exact absurd (EdgeStyle.colored.inj hcol) (by decide)
        rcases hOM : projectOutputMap s with _ | outs
        · rw [hOM] at hu
          simp at hu
        rcases hUM : unusedLibsMap q with _ | txt
        · rw [hOM, hUM] at hu
          simp at hu
        rw [hOM, hUM] at hu
        simp only [List.any_eq_true] at hu
        obtain ⟨o, ho, hoc⟩ := hu
        push_neg at hh
        refine ⟨(List.perm_insertionSort _ display).mem_iff.mp hq,
          (List.perm_insertionSort _ (minRefMap q)).mem_iff.mp hs, hd, hh.1, hh.2,
          outs, txt, rfl, rfl, o, ho, (strContains_infix_iff _ _).mp hoc⟩
    · rw [if_neg hd] at heq
      exact Option.noConfusion heq
  · rintro ⟨hpd, hrmin, hrd, hph, hrh, outs, txt, hOM, hUM, o, ho, hinf⟩
    refine ⟨p, (List.perm_insertionSort _ display).mem_iff.mpr hpd,
      List.mem_filterMap.mpr ⟨r, (List.perm_insertionSort _ (minRefMap p)).mem_iff.mpr hrmin,
        ?_⟩⟩
    rw [if_pos hrd, if_neg (by rintro (h | h); exact hph h; exact hrh h)]
    have hu : (match projectOutputMap r, unusedLibsMap p with
        | some outs, some txt => outs.any (fun o => strContains ('\\' :: o) txt)
        | _, _ => false) = true := by
      rw [hOM, hUM]
      simp only [List.any_eq_true]
      exact ⟨o, ho, (strContains_infix_iff _ _).mpr hinf⟩
    simp only [hu, if_true]

/-- C7 (counterexample): project 0 produces artifact `dep.lib`, project 1
directly (and minimally) references 0, and project 1's retained
unused-reference text is exactly `dep.lib` — which contains the artifact
name as a substring — yet the emitted edge `0 → 1` is black, not flagged
unused: the code requires the artifact name *prefixed by a backslash* to
occur in the text, not the bare artifact name. -/
theorem c7_counterexample :
    ("dep.lib".data <:+: "dep.lib".data) ∧
    add_graph_edges (fun p => if p = 1 then [0] else [])
        (fun r => if r = 0 then some ["dep.lib".data] else none)
        (fun p => if p = 1 then some "dep.lib".data else none)
        [0, 1] [] = [⟨0, 1, .colored "#000000"⟩] := by
  constructor
  · exact List.infix_refl _
  · decide

/-- C7 (amended): a selected minimal-reference edge dependency → dependent
carries the "unused" flag (red color) exactly when some output-artifact
name of the dependency, *prefixed by the path-separator backslash*, appears
as a substring of the dependent's retained unused-reference text; in
particular, when `Dep`(0) produces `dep.lib`, `Consumer`(1) references
`Dep`, and the retained text contains `\dep.lib`, the emitted edge `0 → 1`
is red. -/
theorem c7_unused_edge_flag :
    (∀ (minRefMap : Proj → List Proj)
      (projectOutputMap : Proj → Option (List (List Char)))
      (unusedLibsMap : Proj → Option (List Char))
      (display hidden : List Proj) (r p : Proj),
      GEdge.mk r p (.colored "#ff0000") ∈
          add_graph_edges minRefMap projectOutputMap unusedLibsMap display hidden ↔
        p ∈ display ∧ r ∈ minRefMap p ∧ r ∈ display ∧ p ∉ hidden ∧ r ∉ hidden ∧
          ∃ outs txt, projectOutputMap r = some outs ∧ unusedLibsMap p = some txt ∧
            ∃ o ∈ outs, ('\\' :: o) <:+: txt) ∧
    add_graph_edges (fun p => if p = 1 then [0] else [])
        (fun r => if r = 0 then some ["dep.lib".data] else none)
        (fun p => if p = 1 then some ('\\' :: "dep.lib".data) else none)
        [0, 1] [] = [⟨0, 1, .colored "#ff0000"⟩] :=
  ⟨mem_add_graph_edges_red, by decide⟩

/-! ### Claim C8 -/

/-- C8 (counterexample): a timing fact for project 7, which is not among
the scanned projects `{1, 2}`, is not discarded: processing it raises the
engine's running maximum build duration from 0 to 500 and creates a
build-time entry under its own key. -/
theorem c8_counterexample :
    ((7 : Proj) ∉ ({1, 2} : Finset Proj)) ∧
    (parse_build_log ⟨[], 0, [], []⟩ [⟨1, 7, 500, []⟩]).maxBuildTime = 500 ∧
    (500 : Nat) ≠ 0 ∧
    lookupA (parse_build_log ⟨[], 0, [], []⟩ [⟨1, 7, 500, []⟩]).buildTimeMap 7 = some 500 := by
  decide

/-- C8 (amended): `parse_build_log` performs no matching against the
scanned project set at all: a fact whose normalized project name matches
zero scanned projects is still recorded — the duration is stored under the
fact's own key, the running maximum (used for color scaling) is raised by
it, and the build number is recorded — while the annotations of every
scanned project are left unchanged. -/
theorem c8_unmatched_fact_still_recorded (st : TimingState) (f : BuildFact)
    (scanned : Finset Proj) (hf : f.proj ∉ scanned) :
    (parse_build_log_step st f).maxBuildTime = max st.maxBuildTime f.ms ∧
    lookupA (parse_build_log_step st f).buildTimeMap f.proj = some f.ms ∧
    lookupA (parse_build_log_step st f).buildNumMap f.proj = some f.num ∧
    (∀ q ∈ scanned,
      lookupA (parse_build_log_step st f).buildTimeMap q = lookupA st.buildTimeMap q ∧
      lookupA (parse_build_log_step st f).buildNumMap q = lookupA st.buildNumMap q ∧
      lookupA (parse_build_log_step st f).unusedLibsMap q = lookupA st.unusedLibsMap q) := by
  refine ⟨rfl, lookupA_setA_self _ _ _, lookupA_setA_self _ _ _, ?_⟩
  intro q hq
  have hne : q ≠ f.proj := fun h => hf (h ▸ hq)
  refine ⟨lookupA_setA_ne _ _ _ _ hne, lookupA_setA_ne _ _ _ _ hne, ?_⟩
  simp only [parse_build_log_step]
  by_cases hlen : 0 < f.unusedText.length
  · rw [if_pos hlen]
    exact lookupA_setA_ne _ _ _ _ hne
  · rw [if_neg hlen]

/-- C8 (witness): the amended statement instantiated on a concrete
unmatched fact. -/
theorem c8_witness :
    (parse_build_log_step ⟨[], 0, [], []⟩ ⟨1, 7, 500, []⟩).maxBuildTime = max 0 500 ∧
    lookupA (parse_build_log_step ⟨[], 0, [], []⟩ ⟨1, 7, 500, []⟩).buildTimeMap 7 = some 500 ∧
    lookupA (parse_build_log_step ⟨[], 0, [], []⟩ ⟨1, 7, 500, []⟩).buildNumMap 7 = some 1 ∧
    (∀ q ∈ ({1, 2} : Finset Proj),
      lookupA (parse_build_log_step ⟨[], 0, [], []⟩ ⟨1, 7, 500, []⟩).buildTimeMap q =
        lookupA ([] : List (Proj × Nat)) q ∧
      lookupA (parse_build_log_step ⟨[], 0, [], []⟩ ⟨1, 7, 500, []⟩).buildNumMap q =
        lookupA ([] : List (Proj × Nat)) q ∧
      lookupA (parse_build_log_step ⟨[], 0, [], []⟩ ⟨1, 7, 500, []⟩).unusedLibsMap q =
        lookupA ([] : List (Proj × List Char)) q) :=
  c8_unmatched_fact_still_recorded ⟨[], 0, [], []⟩ ⟨1, 7, 500, []⟩ {1, 2} (by decide)

/-! ### Claim C9 -/

/-- C9 (counterexample): a timed project whose duration equals the maximum
(interpolation parameter 1) is colored full red `#ff0000` by the code,
while the claimed `lerp(fullRed, yellow, duration/maxDuration)` — red at
parameter 0, yellow at parameter 1 — demands yellow `#ffff00` there: the
claimed interpolation runs in the opposite direction. -/
theorem c9_counterexample :
    get_node_color [(0, 100)] 100 [] 0 = "#ff0000" ∧
    claimed_node_color [(0, 100)] 100 [] 0 = "#ffff00" ∧
    get_node_color [(0, 100)] 100 [] 0 ≠ claimed_node_color [(0, 100)] 100 [] 0 := by
  decide

/-- C9 (amended): a timed project's node color is the exact-integer linear
interpolation from *yellow toward full red* at parameter
`duration/maxDuration` — yellow at parameter 0 and full red at parameter 1;
an external untimed project gets the fixed gray `#b0b0b0`, and any other
project the fixed white `#ffffff`. -/
theorem c9_node_color (btm : List (Proj × Nat)) (maxB : Nat) (ext : List Proj) (p : Proj) :
    (∀ d, lookupA btm p = some d →
      get_node_color btm maxB ext p = lerpGreenHex 255 0 d maxB) ∧
    (lookupA btm p = none → p ∈ ext → get_node_color btm maxB ext p = "#b0b0b0") ∧
    (lookupA btm p = none → p ∉ ext → get_node_color btm maxB ext p = "#ffffff") ∧
    (0 < maxB → lerpGreenHex 255 0 maxB maxB = "#ff0000" ∧
      lerpGreenHex 255 0 0 maxB = "#ffff00") := by
  refine ⟨?_, ?_, ?_, ?_⟩
  · intro d hd
    rw [get_node_color, hd, lerpGreenHex]
    simp
  · intro hd hext
    rw [get_node_color, hd]
    simp only [if_pos hext]
  · intro hd hext
    rw [get_node_color, hd]
    simp only [if_neg hext]
  · intro hm
    constructor
    · rw [lerpGreenHex, Nat.sub_self, Nat.mul_zero, Nat.zero_mul, Nat.add_zero, Nat.zero_div]
      decide
    · rw [lerpGreenHex, Nat.sub_zero, Nat.zero_mul, Nat.add_zero, Nat.mul_div_cancel _ hm]
      decide

/-- C9 (witness): the amended color characterization instantiated on
concrete states (timed, external untimed, internal untimed, endpoints). -/
theorem c9_witness :
    get_node_color [(0, 50)] 100 [] 0 = lerpGreenHex 255 0 50 100 ∧
    get_node_color [(1, 50)] 100 [7] 7 = "#b0b0b0" ∧
    get_node_color [(1, 50)] 100 [] 7 = "#ffffff" ∧
    lerpGreenHex 255 0 100 100 = "#ff0000" ∧
    lerpGreenHex 255 0 0 100 = "#ffff00" :=
  ⟨(c9_node_color [(0, 50)] 100 [] 0).1 50 (by decide),
   (c9_node_color [(1, 50)] 100 [7] 7).2.1 (by decide) (by decide),
   (c9_node_color [(1, 50)] 100 [] 7).2.2.1 (by decide) (by decide),
   ((c9_node_color [(0, 50)] 100 [] 0).2.2.2 (by decide)).1,
   ((c9_node_color [(0, 50)] 100 [] 0).2.2.2 (by decide)).2⟩

/-! ### Claim C10 -/

/-- Value of a decimal digit character (left inverse of `digitChar`). -/
def dval (c : Char) : Nat :=
  if c = '0' then 0 else if c = '1' then 1 else if c = '2' then 2 else if c = '3' then 3
  else if c = '4' then 4 else if c = '5' then 5 else if c = '6' then 6 else if c = '7' then 7
  else if c = '8' then 8 else 9

/-- Numeric value of a decimal digit string (proof tool for injectivity). -/
def decVal (l : List Char) : Nat := l.foldl (fun a c => 10 * a + dval c) 0

theorem dval_digitChar : ∀ n, n < 10 → dval (digitChar n) = n := by
  intro n hn
  interval_cases n <;> rfl

theorem decVal_decStrAux : ∀ (fuel n : Nat), n < fuel → decVal (decStrAux fuel n) = n := by
  intro fuel
  induction fuel with
  | zero =>
    intro n h
    omega
  | succ f ih =>
    intro n hn
    rw [decStrAux]
    by_cases h10 : n < 10
    · rw [if_pos h10]
      show 10 * 0 + dval (digitChar n) = n
      rw [dval_digitChar n h10]
      omega
    · rw [if_neg h10]
      have hdiv : n / 10 < f := by
        have h1 : n / 10 < n := Nat.div_lt_self (by omega) (by omega)
        omega
      rw [decVal, List.foldl_append]
      have hval : List.foldl (fun a c => 10 * a + dval c) 0 (decStrAux f (n / 10)) = n / 10 :=
        ih (n / 10) hdiv
      rw [hval]
      show 10 * (n / 10) + dval (digitChar (n % 10)) = n
      rw [dval_digitChar (n % 10) (Nat.mod_lt n (by omega))]
      omega

theorem decStr_injective : ∀ a b, decStr a = decStr b → a = b := by
  intro a b h
  rw [decStr, decStr] at h
  have hl : decStrAux (a + 1) a = decStrAux (b + 1) b := congrArg String.data h
  have ha := decVal_decStrAux (a + 1) a (by omega)
  have hb := decVal_decStrAux (b + 1) b (by omega)
  rw [← ha, ← hb, hl]

theorem lookupS_mem {α : Type} (m : List (String × α)) (s : String) (v : α)
    (h : lookupS m s = some v) : (s, v) ∈ m := by
  induction m with
  | nil => simp [lookupS] at h
  | cons hd tl ih =>
    obtain ⟨k, w⟩ := hd
    by_cases hk : s = k
    · subst hk
      simp only [lookupS, if_pos rfl, if_true, eq_self_iff_true, Option.some.injEq] at h
      subst h
      exact List.mem_cons_self _ _
    · simp only [lookupS, if_neg hk] at h
      exact List.mem_cons_of_mem _ (ih h)

theorem uuid_lookup_aux :
    ∀ (l : List Proj) (k : Nat), l.Nodup → ∀ p ∈ l,
      ∃ i, k ≤ i ∧
        lookupA ((l.enumFrom k).map (fun ip => (ip.2, decStr ip.1))) p = some (decStr i) ∧
        lookupS ((l.enumFrom k).map (fun ip => (decStr ip.1, ip.2))) (decStr i) = some p := by
  intro l
  induction l with
  | nil =>
    intro k _ p hp
    simp at hp
  | cons x xs ih =>
    intro k hnd p hp
    rw [List.enumFrom_cons]
    rcases List.mem_cons.mp hp with rfl | hp
    · exact ⟨k, le_refl k, by simp [lookupA], by simp [lookupS]⟩
    · obtain ⟨i, hki, hU, hR⟩ := ih (k + 1) (List.nodup_cons.mp hnd).2 p hp
      refine ⟨i, by omega, ?_, ?_⟩
      · have hne : p ≠ x := fun h => (List.nodup_cons.mp hnd).1 (h ▸ hp)
        simp only [List.map_cons, lookupA, if_neg hne]
        exact hU
      · have hne : decStr i ≠ decStr k := fun h => by
          have := decStr_injective _ _ h
          omega
        simp only [List.map_cons, lookupS, if_neg hne]
        exact hR

theorem uuid_reverse_lookup_aux :
    ∀ (l : List Proj) (k : Nat), l.Nodup → ∀ (s : String) (q : Proj),
      lookupS ((l.enumFrom k).map (fun ip => (decStr ip.1, ip.2))) s = some q →
      lookupA ((l.enumFrom k).map (fun ip => (ip.2, decStr ip.1))) q = some s := by
  intro l
  induction l with
  | nil =>
    intro k _ s q h
    simp [lookupS] at h
  | cons x xs ih =>
    intro k hnd s q h
    rw [List.enumFrom_cons] at h ⊢
    simp only [List.map_cons] at h ⊢
    by_cases hs : s = decStr k
    · rw [lookupS, if_pos hs] at h
      obtain rfl := Option.some.inj h
      rw [lookupA, if_pos rfl, hs]
    · rw [lookupS, if_neg hs] at h
      have hq : q ∈ xs := by
        have hmem := lookupS_mem _ _ _ h
        rw [List.mem_map] at hmem
        obtain ⟨ip, hip, heq⟩ := hmem
        have : q = ip.2 := by
          have := congrArg Prod.snd heq
          simpa using this.symm
        rw [this]
        have hsnd := List.enumFrom_map_snd (k + 1) xs
        rw [← hsnd]
        exact List.mem_map.mpr ⟨ip, hip, rfl⟩
      have hne : q ≠ x := fun hq' => (List.nodup_cons.mp hnd).1 (hq' ▸ hq)
      rw [lookupA, if_neg hne]
      exact ih (k + 1) (List.nodup_cons.mp hnd).2 s q h

theorem uuid_aliases_aux :
    ∀ (l : List Proj) (k : Nat),
      ((l.enumFrom k).map (fun ip => (ip.2, decStr ip.1))).map Prod.snd =
        (List.range' k l.length).map decStr ∧
      ((l.enumFrom k).map (fun ip => (ip.2, decStr ip.1))).map Prod.fst = l := by
  intro l
  induction l with
  | nil =>
    intro k
    simp
  | cons x xs ih =>
    intro k
    rw [List.enumFrom_cons, List.length_cons, List.range'_succ]
    simp only [List.map_cons]
    exact ⟨by rw [(ih (k + 1)).1], by rw [(ih (k + 1)).2]⟩

/-- C10: after `_generate_uuids`, the alias maps are mutually inverse on
the project set: every project's alias reverses back to it, every
reverse-map binding is mirrored in the forward map, the assigned aliases
are exactly the decimal strings of the consecutive integers `0 .. n-1`
taken in sorted identifier order, and the keys of the forward map are the
projects in sorted order. -/
theorem c10_alias_bijection (allProjects : List Proj) (hnd : allProjects.Nodup) :
    (∀ p ∈ allProjects, ∃ s, lookupA (generate_uuids allProjects).1 p = some s ∧
      lookupS (generate_uuids allProjects).2 s = some p) ∧
    (∀ (s : String) (q : Proj), lookupS (generate_uuids allProjects).2 s = some q →
      lookupA (generate_uuids allProjects).1 q = some s) ∧
    ((generate_uuids allProjects).1.map Prod.snd =
      (List.range allProjects.length).map decStr) ∧
    ((generate_uuids allProjects).1.map Prod.fst =
      allProjects.insertionSort (· ≤ ·)) ∧
    List.Sorted (· ≤ ·) ((generate_uuids allProjects).1.map Prod.fst) := by
  have hsortnd : (allProjects.insertionSort (· ≤ ·)).Nodup :=
    (List.perm_insertionSort _ allProjects).nodup_iff.mpr hnd
  have hlen : (allProjects.insertionSort (· ≤ ·)).length = allProjects.length :=
    (List.perm_insertionSort _ allProjects).length_eq
  have henum : ∀ (l : List Proj), l.enum = l.enumFrom 0 := fun _ => rfl
  refine ⟨?_, ?_, ?_, ?_, ?_⟩
  · intro p hp
    have hp' : p ∈ allProjects.insertionSort (· ≤ ·) :=
      (List.perm_insertionSort _ allProjects).mem_iff.mpr hp
    obtain ⟨i, _, hU, hR⟩ := uuid_lookup_aux (allProjects.insertionSort (· ≤ ·)) 0 hsortnd p hp'
    exact ⟨decStr i, by rw [generate_uuids]; rw [henum] at *; exact hU,
      by rw [generate_uuids]; rw [henum] at *; exact hR⟩
  · intro s q h
    rw [generate_uuids] at h ⊢
    rw [henum] at *
    exact uuid_reverse_lookup_aux (allProjects.insertionSort (· ≤ ·)) 0 hsortnd s q h
  · rw [generate_uuids]
    rw [henum]
    rw [(uuid_aliases_aux (allProjects.insertionSort (· ≤ ·)) 0).1, hlen,
      List.range_eq_range']
  · rw [generate_uuids]
    rw [henum]
    exact (uuid_aliases_aux (allProjects.insertionSort (· ≤ ·)) 0).2
  · rw [generate_uuids]
    rw [henum]
    rw [(uuid_aliases_aux (allProjects.insertionSort (· ≤ ·)) 0).2]
    exact List.sorted_insertionSort _ allProjects

/-- C10 (witness): the alias bijection instantiated on the concrete
project set `{5, 3, 9}`, looked up at project 3. -/
theorem c10_witness :
    ∃ s, lookupA (generate_uuids [5, 3, 9]).1 3 = some s ∧
      lookupS (generate_uuids [5, 3, 9]).2 s = some 3 :=
  (c10_alias_bijection [5, 3, 9] (by decide)).1 3 (by decide)

/-- C6 (witness): the membership restriction of the amended leaderboard
statement instantiated on Scenario C's data at project 0. -/
theorem c6_witness : (0 : Proj) ∈ ([0, 1, 2] : List Proj) :=
  c6_leaderboard_stable_desc.2.2.1 [(0, 500), (1, 300), (2, 900)] [0, 1, 2] 2 0 (by decide)

/-- C7 (witness): the red-edge characterization instantiated on the
concrete scenario with the backslash-prefixed artifact in the text. -/
theorem c7_witness :
    GEdge.mk 0 1 (.colored "#ff0000") ∈
      add_graph_edges (fun p => if p = 1 then [0] else [])
        (fun r => if r = 0 then some ["dep.lib".data] else none)
        (fun p => if p = 1 then some ('\\' :: "dep.lib".data) else none)
        [0, 1] [] :=
  (c7_unused_edge_flag.1 (fun p => if p = 1 then [0] else [])
      (fun r => if r = 0 then some ["dep.lib".data] else none)
      (fun p => if p = 1 then some ('\\' :: "dep.lib".data) else none)
      [0, 1] [] 0 1).mpr
    ⟨by decide, by decide, by decide, by decide, by decide,
      ["dep.lib".data], '\\' :: "dep.lib".data, by decide, by decide,
      "dep.lib".data, by decide, List.infix_refl _⟩
